import Mathlib

/-!
Verification of the zlog structured-logging engine.

Shallow embedding of the Go sources: the wire-format codec (`fields.go`,
`ultralog.go`), the terminal renderer (`terminal_writer.go`, second
definition in the file, lines 439-769), the lock-free ring buffer and
async writer, and the memory-mapped circular writer
(`mmap_writer_unix.go`).  Byte buffers are `List Nat` with every entry
below 256; machine integers are `Nat` with explicit `% 2^w` where Go's
fixed-width arithmetic can wrap.
-/

namespace Zlog

/-! ### Byte-level helpers -/

/-- Read one byte of a buffer; Go indexing `b[pos]` (all uses in the decoder
are guarded by explicit length checks, so the default is never exercised on
the paths proved below). -/
def byteAt (b : List Nat) (pos : Nat) : Nat := b.getD pos 0

/-- `binary.LittleEndian.PutUint32`: the four little-endian bytes of `v`. -/
def le32 (v : Nat) : List Nat :=
  [v % 256, (v >>> 8) % 256, (v >>> 16) % 256, (v >>> 24) % 256]

/-- `binary.LittleEndian.PutUint64`: the eight little-endian bytes of `v`. -/
def le64 (v : Nat) : List Nat :=
  [v % 256, (v >>> 8) % 256, (v >>> 16) % 256, (v >>> 24) % 256,
   (v >>> 32) % 256, (v >>> 40) % 256, (v >>> 48) % 256, (v >>> 56) % 256]

/-- `binary.LittleEndian.Uint32(b[pos:pos+4])` (library semantics: the
base-256 value of the four bytes, least significant first). -/
def readLE32 (b : List Nat) (pos : Nat) : Nat :=
  byteAt b pos + byteAt b (pos + 1) * 2 ^ 8 + byteAt b (pos + 2) * 2 ^ 16 +
    byteAt b (pos + 3) * 2 ^ 24

/-- `binary.LittleEndian.Uint64(b[pos:pos+8])`. -/
def readLE64 (b : List Nat) (pos : Nat) : Nat :=
  byteAt b pos + byteAt b (pos + 1) * 2 ^ 8 + byteAt b (pos + 2) * 2 ^ 16 +
    byteAt b (pos + 3) * 2 ^ 24 + byteAt b (pos + 4) * 2 ^ 32 +
    byteAt b (pos + 5) * 2 ^ 40 + byteAt b (pos + 6) * 2 ^ 48 +
    byteAt b (pos + 7) * 2 ^ 56

/-- The eight big-endian bytes `byte(v>>56) .. byte(v)` written by
`encodeField` for the 8-byte value slots. -/
def be64 (v : Nat) : List Nat :=
  [(v >>> 56) % 256, (v >>> 48) % 256, (v >>> 40) % 256, (v >>> 32) % 256,
   (v >>> 24) % 256, (v >>> 16) % 256, (v >>> 8) % 256, v % 256]

/-- The four big-endian bytes written for a float32 value slot. -/
def be32 (v : Nat) : List Nat :=
  [(v >>> 24) % 256, (v >>> 16) % 256, (v >>> 8) % 256, v % 256]

/-- The two big-endian length bytes `byte(n>>8), byte(n)`. -/
def be16 (v : Nat) : List Nat := [(v >>> 8) % 256, v % 256]

/-- `uint64(b[pos])<<56 | uint64(b[pos+1])<<48 | ... | uint64(b[pos+7])`,
the manual big-endian decode in `decodeFieldValue`. -/
def readBE64 (b : List Nat) (pos : Nat) : Nat :=
  byteAt b pos <<< 56 ||| byteAt b (pos + 1) <<< 48 ||| byteAt b (pos + 2) <<< 40 |||
    byteAt b (pos + 3) <<< 32 ||| byteAt b (pos + 4) <<< 24 ||| byteAt b (pos + 5) <<< 16 |||
    byteAt b (pos + 6) <<< 8 ||| byteAt b (pos + 7)

/-- `uint32(b[pos])<<24 | ... | uint32(b[pos+3])`. -/
def readBE32 (b : List Nat) (pos : Nat) : Nat :=
  byteAt b pos <<< 24 ||| byteAt b (pos + 1) <<< 16 ||| byteAt b (pos + 2) <<< 8 |||
    byteAt b (pos + 3)

/-- `uint16(b[pos])<<8 | uint16(b[pos+1])`. -/
def readBE16 (b : List Nat) (pos : Nat) : Nat :=
  byteAt b pos <<< 8 ||| byteAt b (pos + 1)

/-! ### Wire format: data model (fields.go) -/

/-- `MagicHeader = 0x554C4F47` ("ULOG"). -/
def MagicHeader : Nat := 0x554C4F47

/-- Wire-format version byte. -/
def Version : Nat := 1

/-- `FieldType` constants, iota order: Int, Uint, Float32, Float64, String,
Bool, Bytes. -/
inductive FieldType
  | int
  | uint
  | float32
  | float64
  | string
  | bool
  | bytes
deriving DecidableEq, Repr

/-- The numeric tag of a field type (the iota value). -/
def FieldType.toTag : FieldType → Nat
  | .int => 0
  | .uint => 1
  | .float32 => 2
  | .float64 => 3
  | .string => 4
  | .bool => 5
  | .bytes => 6

/-- `Field`: key plus union-like storage.  `num` is the 64-bit slot (raw
int/uint/bool value, float bit pattern, and for Bytes the stored length);
`str` is the string payload; `dat` is the byte-blob that `ptr` points at. -/
structure Field where
  key : List Nat
  type : FieldType
  num : Nat := 0
  str : List Nat := []
  dat : List Nat := []
deriving DecidableEq, Repr

/-- `Int64(key, val)`: stores `uint64(val)`. -/
def intField (key : List Nat) (v : Int) : Field :=
  ⟨key, .int, (v % 2 ^ 64).toNat, [], []⟩

/-- `Uint64(key, val)`. -/
def uintField (key : List Nat) (v : Nat) : Field := ⟨key, .uint, v % 2 ^ 64, [], []⟩

/-- `Float32(key, val)`: `v` is the 32-bit pattern of the float. -/
def float32Field (key : List Nat) (v : Nat) : Field := ⟨key, .float32, v % 2 ^ 32, [], []⟩

/-- `Float64(key, val)`: `v` is the 64-bit pattern of the float. -/
def float64Field (key : List Nat) (v : Nat) : Field := ⟨key, .float64, v % 2 ^ 64, [], []⟩

/-- `String(key, val)`. -/
def strField (key val : List Nat) : Field := ⟨key, .string, 0, val, []⟩

/-- `Bool(key, val)`. -/
def boolField (key : List Nat) (v : Bool) : Field :=
  ⟨key, .bool, if v then 1 else 0, [], []⟩

/-- `Bytes(key, val)`: `ptr` points at `val`, `num` holds `len(val)`. -/
def bytesField (key val : List Nat) : Field := ⟨key, .bytes, val.length, [], val⟩

/-- Every entry is a byte value. -/
def allBytes (l : List Nat) : Prop := ∀ x ∈ l, x < 256

instance (l : List Nat) : Decidable (allBytes l) := List.decidableBAll _ l

/-- Well-formedness of the union storage: exactly the shapes the public
constructors produce. -/
def Field.wf (f : Field) : Prop :=
  allBytes f.key ∧
  match f.type with
  | .int | .uint | .float64 => f.num < 2 ^ 64 ∧ f.str = [] ∧ f.dat = []
  | .bool => f.num < 2 ∧ f.str = [] ∧ f.dat = []
  | .float32 => f.num < 2 ^ 32 ∧ f.str = [] ∧ f.dat = []
  | .string => allBytes f.str ∧ f.num = 0 ∧ f.dat = []
  | .bytes => allBytes f.dat ∧ f.num = f.dat.length ∧ f.str = []

instance (f : Field) : Decidable f.wf := by
  unfold Field.wf
  cases f.type <;> simp <;> infer_instance

/-! ### Wire format: encoder (fields.go, ultralog.go) -/

/-- Value bytes written by `encodeField`'s switch, given the remaining
space `r = len(buf) - pos` after key and type tag. -/
def encodeFieldVal (r : Nat) (f : Field) : List Nat :=
  match f.type with
  | .int | .uint | .bool =>
    -- FieldTypeInt, FieldTypeUint, FieldTypeBool: 8 big-endian bytes of num
    if r < 8 then [] else be64 f.num
  | .float32 =>
    -- v := *(*uint32)(unsafe.Pointer(&f.num)): low 32 bits on a
    -- little-endian host
    if r < 4 then [] else be32 (f.num % 2 ^ 32)
  | .float64 =>
    if r < 8 then [] else be64 f.num
  | .string =>
    if r < 2 then []
    else
      -- strLen := len(f.str); capped at maxLen = r-2, then at 65535
      let sl := min (min f.str.length (r - 2)) 65535
      be16 sl ++ f.str.take sl
  | .bytes =>
    if r < 2 then []
    else
      -- dataLen := int(f.num); capped at maxLen = r-2, then at 65535;
      -- the payload copy reads dataLen bytes from ptr (within dat when wf)
      let dl := min (min f.num (r - 2)) 65535
      be16 dl ++ f.dat.take dl

/-- `encodeField(buf, f)` with `L = len(buf)`: the bytes written at the
front of `buf` (the Go function returns their count). -/
def encodeField (L : Nat) (f : Field) : List Nat :=
  if L < 10 then []
  else
    -- keyLen := min(len(f.Key), 255), then capped at L-2 (space for the
    -- type byte); the `keyLen < 0` bail-out is unreachable since L ≥ 10
    let keyLen := min (min f.key.length 255) (L - 2)
    [keyLen] ++ f.key.take keyLen ++ [f.type.toTag] ++
      encodeFieldVal (L - (keyLen + 2)) f

/-- Size of the pooled buffer used by `logFields` (`structuredPool`). -/
def structuredBufLen : Nat := 1024

/-- The field loop of `logFields`:
`for i := 0; i < fieldCount && pos < len(buf)-64; i++`. -/
def encodeFields (pos : Nat) : List Field → List Nat
  | [] => []
  | f :: fs =>
    if pos < structuredBufLen - 64 then
      let fb := encodeField (structuredBufLen - pos) f
      fb ++ encodeFields (pos + fb.length) fs
    else []

/-- `writeBinaryHeader`: magic (LE), version, level byte, sequence (LE),
timestamp (LE) — 22 bytes.  The timestamp is `time.Now().UnixNano()`,
passed in as the ambient clock value `ts`. -/
def writeBinaryHeader (level seq ts : Nat) : List Nat :=
  le32 MagicHeader ++ [Version, level % 256] ++ le64 seq ++ le64 ts

/-- The record bytes produced by `logFields` (fields.go lines 122-164) once
the level check has passed: header, length-capped message, capped field
count byte, then the field loop over the 1024-byte pooled buffer. -/
def logFieldsBytes (level seq ts : Nat) (msg : List Nat) (fields : List Field) :
    List Nat :=
  let msgLen := min msg.length 255
  let fieldCount := min fields.length 255
  writeBinaryHeader level seq ts ++ [msgLen] ++ msg.take msgLen ++
    [fieldCount] ++ encodeFields (24 + msgLen) (fields.take fieldCount)

/-- The record bytes produced by `logDirect` (ultralog.go lines 98-152):
256-byte stack buffer, so `maxMsg = len(buf) - pos - 1 = 233`. -/
def logDirectBytes (level seq ts : Nat) (msg : List Nat) : List Nat :=
  let maxMsg := 256 - 22 - 1
  let msgLen := min (min msg.length maxMsg) 255
  writeBinaryHeader level seq ts ++ [msgLen] ++
    (if 0 < msgLen ∧ 23 + msgLen ≤ 256 then msg.take msgLen else [])

/-! ### Wire format: structural decoder (terminal_writer.go lines 499-721)

`TerminalWriter.Write` decodes a record while rendering it.  The
definitions below are its decode traversal with the text rendering
stripped: every branch that would render the `"?"` placeholder yields
`none` for that field, and the two typed errors yield `none` for the whole
record.  The rendering itself (with the placeholder behavior) is embedded
separately further down for the error-behavior claim. -/

/-- A decoded record.  `fields` entries are `none` where the renderer
would print the `"?"` placeholder. -/
structure DecRecord where
  level : Nat
  seq : Nat
  ts : Nat
  msg : List Nat
  fields : List (Option Field)
deriving DecidableEq, Repr

/-- Structural content of `decodeFieldValue` (lines 656-706): parse the
value bytes `t = b[pos:]` for tag `tag` into a `Field` with key `key`;
the `"?"` branches give `none`. -/
def decodeFieldValueM (key : List Nat) (t : List Nat) (tag : Nat) : Option Field :=
  if tag = 0 then -- FieldTypeInt, big-endian; rendered as %d of int64(v)
    if 8 ≤ t.length then some ⟨key, .int, readBE64 t 0, [], []⟩ else none
  else if tag = 1 then -- FieldTypeUint
    if 8 ≤ t.length then some ⟨key, .uint, readBE64 t 0, [], []⟩ else none
  else if tag = 5 then -- FieldTypeBool, shares the 8-byte read
    if 8 ≤ t.length then some ⟨key, .bool, readBE64 t 0, [], []⟩ else none
  else if tag = 2 then -- FieldTypeFloat32
    if 4 ≤ t.length then some ⟨key, .float32, readBE32 t 0, [], []⟩ else none
  else if tag = 3 then -- FieldTypeFloat64
    if 8 ≤ t.length then some ⟨key, .float64, readBE64 t 0, [], []⟩ else none
  else if tag = 4 then -- FieldTypeString
    if 2 ≤ t.length then
      let sl := readBE16 t 0
      if 2 + sl ≤ t.length then some ⟨key, .string, 0, (t.drop 2).take sl, []⟩
      else none
    else none
  else if tag = 6 then -- FieldTypeBytes
    if 2 ≤ t.length then
      let dl := readBE16 t 0
      if 2 + dl ≤ t.length then some ⟨key, .bytes, dl, [], (t.drop 2).take dl⟩
      else none
    else none
  else none -- unknown tag: "?"

/-- `fieldValueSize(b[pos:], fieldType)` (lines 709-721). -/
def fieldValueSizeM (t : List Nat) (tag : Nat) : Nat :=
  if tag = 0 ∨ tag = 1 ∨ tag = 5 ∨ tag = 3 then 8
  else if tag = 2 then 4
  else if tag = 4 ∨ tag = 6 then
    if 2 ≤ t.length then 2 + readBE16 t 0 else 0
  else 0

/-- The field loop of `Write` (lines 569-609), fuelled by the remaining
iteration count `n` (the loop also stops when `pos` reaches the end). -/
def decodeFieldsM (b : List Nat) : Nat → Nat → List (Option Field)
  | _, 0 => []
  | pos, n + 1 =>
    if pos < b.length then
      let keyLen := byteAt b pos
      if pos + 1 + keyLen > b.length then []
      else
        let key := (b.drop (pos + 1)).take keyLen
        if b.length ≤ pos + 1 + keyLen then []
        else
          let tag := byteAt b (pos + 1 + keyLen)
          let t := b.drop (pos + 2 + keyLen)
          decodeFieldValueM key t tag ::
            decodeFieldsM b (pos + 2 + keyLen + fieldValueSizeM t tag) n
    else []

/-- The structural decode performed by `TerminalWriter.Write` (lines
499-617): header checks, then extraction of level, timestamp, message and
fields.  The sequence occupies bytes 6-13 (little endian) of the layout;
the renderer skips it (`// seq := ...`) but it is part of the decode
contract, so it is read here. -/
def decodeRecord (b : List Nat) : Option DecRecord :=
  if b.length < 22 then none -- "invalid log entry: too short"
  else if readLE32 b 0 ≠ MagicHeader then none -- "invalid magic header"
  else
    let level := byteAt b 5
    let seq := readLE64 b 6
    let ts := readLE64 b 14
    let (msg, pos) :=
      if 22 < b.length then
        let msgLen := byteAt b 22
        if 23 + msgLen ≤ b.length then ((b.drop 23).take msgLen, 23 + msgLen)
        else ([], 23)
      else ([], 22)
    let fields :=
      if pos < b.length then decodeFieldsM b (pos + 1) (byteAt b pos) else []
    some ⟨level, seq, ts, msg, fields⟩



/-! ### Untruncated field encodings (derived forms used in statements) -/

/-- Wire size of one field value when nothing is truncated. -/
def Field.valSize (f : Field) : Nat :=
  match f.type with
  | .int | .uint | .bool | .float64 => 8
  | .float32 => 4
  | .string => 2 + f.str.length
  | .bytes => 2 + f.dat.length

/-- Wire size of one untruncated encoded field: key length byte, key,
type tag, value. -/
def Field.size (f : Field) : Nat := 2 + f.key.length + f.valSize

/-- Value bytes when nothing is truncated. -/
def cleanVal (f : Field) : List Nat :=
  match f.type with
  | .int | .uint | .bool | .float64 => be64 f.num
  | .float32 => be32 (f.num % 2 ^ 32)
  | .string => be16 f.str.length ++ f.str
  | .bytes => be16 f.dat.length ++ f.dat

/-- One untruncated encoded field. -/
def cleanField (f : Field) : List Nat :=
  [f.key.length] ++ f.key ++ [f.type.toTag] ++ cleanVal f

/-- The length caps the claim quantifies over: key ≤ 255 bytes,
string/blob values ≤ 65535 bytes. -/
def Field.small (f : Field) : Prop :=
  f.key.length ≤ 255 ∧ f.str.length ≤ 65535 ∧ f.dat.length ≤ 65535

instance (f : Field) : Decidable f.small := by unfold Field.small; infer_instance

/-- Total untruncated record size: 22-byte header, message length byte,
message, field count byte, fields. -/
def recordSize (msg : List Nat) (fields : List Field) : Nat :=
  24 + msg.length + (fields.map Field.size).sum

/-- `n` copies of the 4-byte minimal field encoding `[0, 4, 0, 0]`
(empty key, string tag, zero-length value). -/
def minBlock : Nat → List Nat
  | 0 => []
  | n + 1 => 0 :: 4 :: 0 :: 0 :: minBlock n

/-! ### Terminal renderer (terminal_writer.go lines 439-769) -/

/-- ASCII bytes of a literal. -/
def asciiBytes (s : String) : List Nat := s.data.map Char.toNat

/-- `colorReset = "\x1b[0m"`. -/
def colorReset : List Nat := asciiBytes "\x1b[0m"

/-- `getLevelColor` (lines 620-635). -/
def getLevelColor (level : Nat) : List Nat :=
  if level = 0 then asciiBytes "\x1b[36m" -- LevelDebug: cyan
  else if level = 1 then asciiBytes "\x1b[32m" -- LevelInfo: green
  else if level = 2 then asciiBytes "\x1b[33m" -- LevelWarn: yellow
  else if level = 3 then asciiBytes "\x1b[31m" -- LevelError: red
  else if level = 4 then asciiBytes "\x1b[35m" -- LevelFatal: magenta
  else []

/-- `getLevelString` (lines 638-653). -/
def getLevelString (level : Nat) : List Nat :=
  if level = 0 then asciiBytes "DEBUG"
  else if level = 1 then asciiBytes "INFO "
  else if level = 2 then asciiBytes "WARN "
  else if level = 3 then asciiBytes "ERROR"
  else if level = 4 then asciiBytes "FATAL"
  else asciiBytes "UNKN "

/-- Go library formatting used by the renderer, abstracted: time
formatting (`time.AppendFormat`), `fmt.Sprintf` verbs, and the `%q`
quoting fallback of `escapeString`.  The renderer's error behavior does
not depend on any of them. -/
structure GoLib where
  fmtTime : Nat → List Nat
  fmtInt : Nat → List Nat
  fmtUint : Nat → List Nat
  fmtFloat32 : Nat → List Nat
  fmtFloat64 : Nat → List Nat
  fmtHex : List Nat → List Nat
  quote : List Nat → List Nat

/-- A trivial instantiation of the abstracted library hooks (used to
evaluate the renderer at concrete inputs). -/
def lib0 : GoLib where
  fmtTime _ := []
  fmtInt _ := []
  fmtUint _ := []
  fmtFloat32 _ := []
  fmtFloat64 _ := []
  fmtHex _ := []
  quote _ := []

/-- `strings.ContainsAny(s, "\\\"\n\r\t ")`. -/
def needsEscape (s : List Nat) : Bool :=
  s.any fun c => c = 92 || c = 34 || c = 10 || c = 13 || c = 9 || c = 32

/-- The escape loop of `escapeString` (lines 733-752): special characters
are backslash-escaped into the 128-byte stack buffer; a rune ≥ 128 or a
nearly full buffer falls back to `fmt.Sprintf("%q", s)`.  Byte-level
iteration agrees with Go's rune-level iteration because the loop falls
back at the first non-ASCII byte. -/
def escapeLoop (lib : GoLib) (s : List Nat) : List Nat → List Nat → List Nat
  | acc, [] => acc ++ [34]
  | acc, c :: cs =>
    if c = 92 ∨ c = 34 then escapeLoop lib s (acc ++ [92, c]) cs
    else if c = 10 then escapeLoop lib s (acc ++ [92, 110]) cs
    else if c = 13 then escapeLoop lib s (acc ++ [92, 114]) cs
    else if c = 9 then escapeLoop lib s (acc ++ [92, 116]) cs
    else if c < 128 ∧ acc.length < 126 then escapeLoop lib s (acc ++ [c]) cs
    else lib.quote s

/-- `escapeString` (lines 724-756): fast path when no `\\ " \n \r \t space`
occurs, otherwise quote-and-escape. -/
def escapeStringGo (lib : GoLib) (s : List Nat) : List Nat :=
  if needsEscape s then escapeLoop lib s [34] s else s

/-- `decodeFieldValue` (lines 656-706) as rendered text; every failed
length check falls through to the `"?"` placeholder. -/
def decodeFieldValueStr (lib : GoLib) (t : List Nat) (tag : Nat) : List Nat :=
  if tag = 0 then
    if 8 ≤ t.length then lib.fmtInt (readBE64 t 0) else [63]
  else if tag = 1 ∨ tag = 5 then
    if 8 ≤ t.length then
      if tag = 5 then
        if readBE64 t 0 = 0 then asciiBytes "false" else asciiBytes "true"
      else lib.fmtUint (readBE64 t 0)
    else [63]
  else if tag = 2 then
    if 4 ≤ t.length then lib.fmtFloat32 (readBE32 t 0) else [63]
  else if tag = 3 then
    if 8 ≤ t.length then lib.fmtFloat64 (readBE64 t 0) else [63]
  else if tag = 4 then
    if 2 ≤ t.length then
      let sl := readBE16 t 0
      if 2 + sl ≤ t.length then escapeStringGo lib ((t.drop 2).take sl) else [63]
    else [63]
  else if tag = 6 then
    if 2 ≤ t.length then
      let dl := readBE16 t 0
      if 2 + dl ≤ t.length then lib.fmtHex ((t.drop 2).take dl) else [63]
    else [63]
  else [63]

/-- The field-rendering loop of `Write` (lines 569-609): `sep` records
whether a separating space is due (`i > 0`). -/
def renderFields (lib : GoLib) (useColor : Bool) (color : List Nat)
    (b : List Nat) : Nat → Nat → Bool → List Nat → List Nat
  | _, 0, _, buf => buf
  | pos, n + 1, sep, buf =>
    if pos < b.length then
      let buf := if sep then buf ++ [32] else buf
      let keyLen := byteAt b pos
      if pos + 1 + keyLen > b.length then buf
      else
        let key := (b.drop (pos + 1)).take keyLen
        if b.length ≤ pos + 1 + keyLen then buf
        else
          let tag := byteAt b (pos + 1 + keyLen)
          let t := b.drop (pos + 2 + keyLen)
          let buf :=
            if useColor ∧ color ≠ [] then buf ++ color ++ key ++ colorReset ++ [61]
            else buf ++ key ++ [61]
          let buf := buf ++ decodeFieldValueStr lib t tag
          renderFields lib useColor color b (pos + 2 + keyLen + fieldValueSizeM t tag)
            n true buf
    else buf

/-- The two typed errors of `TerminalWriter.Write`. -/
inductive TermError
  | tooShort -- "invalid log entry: too short"
  | badMagic -- "invalid magic header"
deriving DecidableEq, Repr

/-- `TerminalWriter.Write` (lines 499-617): decode `b` and render; the
result is the text written to `w.out`.  The pooled buffer is never nil
(the pool has a `New` function), and downstream I/O is outside the decode
model, so the two typed errors above are the only error returns. -/
def terminalWrite (lib : GoLib) (useColor : Bool) (b : List Nat) :
    Except TermError (List Nat) :=
  if b.length < 22 then .error .tooShort
  else if readLE32 b 0 ≠ MagicHeader then .error .badMagic
  else
    let level := byteAt b 5
    let ts := readLE64 b 14
    let (msg, pos) :=
      if 22 < b.length then
        let msgLen := byteAt b 22
        if 23 + msgLen ≤ b.length then ((b.drop 23).take msgLen, 23 + msgLen)
        else ([], 23)
      else ([], 22)
    let color := getLevelColor level
    let levelStr := getLevelString level
    let buf :=
      if useColor ∧ color ≠ [] then color ++ levelStr ++ colorReset else levelStr
    let buf := buf ++ [91] ++ lib.fmtTime ts ++ [93, 32] ++ msg
    let buf :=
      if pos < b.length ∧ msg.length < 40 then
        buf ++ List.replicate (40 - msg.length) 32
      else buf
    let buf :=
      if pos < b.length then
        renderFields lib useColor color b (pos + 1) (byteAt b pos) false buf
      else buf
    .ok (buf ++ [10])

/-! ### Logger core (ultralog.go) -/

/-- Logger state: the packed atomic `state` word (level in the low byte)
and the sequence counter.  The writer handle is carried by the run
functions below as the produced sink-invocation list. -/
structure LoggerState where
  state : Nat
  sequence : Nat
deriving DecidableEq, Repr

/-- `shouldLog`: `Level(l.state.Load()&0xFF) <= level`. -/
def shouldLog (l : LoggerState) (level : Nat) : Bool :=
  l.state &&& 0xFF ≤ level

/-- One `logDirect` call: the successor logger state and the sink
invocations it makes (the encoded record, or nothing when filtered).
`ts` is the ambient clock value. -/
def logDirect (l : LoggerState) (level ts : Nat) (msg : List Nat) :
    LoggerState × List (List Nat) :=
  if !shouldLog l level then (l, [])
  else
    let seq := (l.sequence + 1) % 2 ^ 64
    ({ l with sequence := seq }, [logDirectBytes level seq ts msg])

/-- One `logFields` call on the structured logger. -/
def logFields (l : LoggerState) (level ts : Nat) (msg : List Nat)
    (fields : List Field) : LoggerState × List (List Nat) :=
  if !shouldLog l level then (l, [])
  else
    let seq := (l.sequence + 1) % 2 ^ 64
    ({ l with sequence := seq }, [logFieldsBytes level seq ts msg fields])

/-! ### Ring buffer (lock-free SPMC, src/unnamed/part_001) -/

/-- `RingBuffer`: two cursors, a slice of entry pointers, the size and
the bitmask. -/
structure RingBuffer where
  mask : Nat
  head : Nat
  tail : Nat
  buffer : List (Option (List Nat))
  size : Nat
deriving DecidableEq, Repr

/-- `NewRingBuffer`: panics (`none`) when `size&(size-1) != 0`; the mask
is `uint64(size - 1)`, which wraps to `2^64 - 1` when `size = 0`. -/
def newRingBuffer (size : Nat) : Option RingBuffer :=
  if size &&& (size - 1) ≠ 0 then none
  else
    some ⟨(((size : Int) - 1) % (2 : Int) ^ 64).toNat, 0, 0,
      List.replicate size none, size⟩

/-- `Put`: `false` when full; `none` models the Go index-out-of-range
panic when the store `rb.buffer[head]` is out of bounds.  The entry is a
fixed 256-byte slot, so `entry.len = copy(entry.data[:], data)` keeps the
first 256 bytes. -/
def ringPut (rb : RingBuffer) (data : List Nat) : Option (RingBuffer × Bool) :=
  let next := (rb.head + 1) &&& rb.mask
  if next = rb.tail then some (rb, false)
  else if rb.head < rb.buffer.length then
    let rb1 := { rb with
      buffer := rb.buffer.set rb.head (some (data.take 256))
      head := next }
    some (rb1, true)
  else none

/-- `Get` in the sequential single-consumer setting (the CAS on `tail`
always succeeds).  An empty buffer yields a `none` payload.  The read
`rb.buffer[tail]` is modeled through `getElem?`: an out-of-bounds index
is the Go panic and a claimed slot whose entry pointer is still nil makes
the consumer spin forever — both are the outer `none`. -/
def ringGet (rb : RingBuffer) : Option (RingBuffer × Option (List Nat)) :=
  if rb.tail = rb.head then some (rb, none)
  else
    match rb.buffer[rb.tail]? with
    | some (some e) =>
      let rb1 := { rb with
        buffer := rb.buffer.set rb.tail none
        tail := (rb.tail + 1) &&& rb.mask }
      some (rb1, some e)
    | some none => none
    | none => none

/-- Sequential composition of `Put` calls, collecting the results. -/
def putList (rb : RingBuffer) : List (List Nat) → Option (RingBuffer × List Bool)
  | [] => some (rb, [])
  | d :: ds =>
    match ringPut rb d with
    | none => none
    | some (rb1, ok) =>
      match putList rb1 ds with
      | none => none
      | some (rb2, oks) => some (rb2, ok :: oks)

/-- `n` sequential `Get` calls, collecting the payloads. -/
def getList (rb : RingBuffer) : Nat → Option (RingBuffer × List (Option (List Nat)))
  | 0 => some (rb, [])
  | n + 1 =>
    match ringGet rb with
    | none => none
    | some (rb1, r) =>
      match getList rb1 n with
      | none => none
      | some (rb2, rs) => some (rb2, r :: rs)

/-- The drain loop of the async consumer once `done` is observed closed:
`Get`-and-forward until a `Get` reports empty.  Fuelled; for a well-formed
ring the queue is shorter than the fuel `size + 1`. -/
def drainAll (rb : RingBuffer) : Nat → Option (RingBuffer × List (List Nat))
  | 0 => none
  | n + 1 =>
    match ringGet rb with
    | none => none
    | some (rb1, none) => some (rb1, [])
    | some (rb1, some d) =>
      match drainAll rb1 n with
      | none => none
      | some (rb2, ds) => some (rb2, d :: ds)


/-- The ring state with entries `ds` enqueued from empty and the first
`j` of them already consumed (single producer, single consumer): head at
`ds.length`, tail at `j`, consumed slots cleared. -/
def midRing (N : Nat) (ds : List (List Nat)) (j : Nat) : RingBuffer :=
  ⟨N - 1, ds.length, j,
    List.replicate j none ++
      ((ds.drop j).map fun d => some (d.take 256)) ++
      List.replicate (N - ds.length) none,
    N⟩

/-- Structural invariant of a ring of size `2^k`: mask, size, backing
array length, and both cursors within bounds. -/
def RingInv (k : Nat) (rb : RingBuffer) : Prop :=
  rb.mask = 2 ^ k - 1 ∧ rb.size = 2 ^ k ∧ rb.buffer.length = 2 ^ k ∧
    rb.head < 2 ^ k ∧ rb.tail < 2 ^ k

instance (k : Nat) (rb : RingBuffer) : Decidable (RingInv k rb) := by
  unfold RingInv; infer_instance

/-! ### Async writer (src/unnamed/part_001 lines 96-163) -/

/-- Global state of one `AsyncWriter` together with its caller and
consumer goroutine: the ring, the `done` channel flag, whether `Close`
has returned, whether the consumer loop has exited, and the records
forwarded to the downstream writer so far (in order). -/
structure AsyncState where
  ring : RingBuffer
  doneClosed : Bool
  closeReturned : Bool
  consumerExited : Bool
  out : List (List Nat)
deriving DecidableEq, Repr

/-- `NewAsyncWriter`: fresh ring, consumer running. -/
def newAsyncState (size : Nat) : Option AsyncState :=
  (newRingBuffer size).map fun rb => ⟨rb, false, false, false, []⟩

/-- Interleaving semantics of the async writer: one step of the producer
(`Write`), of `Close`, or of the consumer loop.  After `done` is closed
the consumer's `select` may still take the `default` branch (both cases
are ready), so `consumeOne`/`consumeIdle` are not guarded on
`doneClosed`. -/
inductive AsyncStep : AsyncState → AsyncState → Prop
  | writeQueued (s : AsyncState) (d : List Nat) (rb1 : RingBuffer)
      (h : ringPut s.ring d = some (rb1, true)) :
      AsyncStep s { s with ring := rb1 }
  | writeFallback (s : AsyncState) (d : List Nat)
      (h : ringPut s.ring d = some (s.ring, false)) :
      AsyncStep s { s with out := s.out ++ [d] }
  | close (s : AsyncState) (h : s.doneClosed = false) :
      AsyncStep s { s with doneClosed := true, closeReturned := true }
  | consumeOne (s : AsyncState) (rb1 : RingBuffer) (d : List Nat)
      (hrun : s.consumerExited = false)
      (h : ringGet s.ring = some (rb1, some d)) :
      AsyncStep s { s with ring := rb1, out := s.out ++ [d] }
  | consumeIdle (s : AsyncState) (hrun : s.consumerExited = false)
      (h : ringGet s.ring = some (s.ring, none)) :
      AsyncStep s s
  | consumeDrain (s : AsyncState) (rb1 : RingBuffer) (ds : List (List Nat))
      (hdone : s.doneClosed = true) (hrun : s.consumerExited = false)
      (h : drainAll s.ring (s.ring.size + 1) = some (rb1, ds)) :
      AsyncStep s
        { s with ring := rb1, out := s.out ++ ds, consumerExited := true }

/-! ### Memory-mapped circular writer (mmap_writer_unix.go) -/

/-- `MMapWriter`: mapped region `data` of fixed `size` with one atomic
byte `offset`.  File descriptor and page size only matter for the
asynchronous `msync`, which leaves `data` and `offset` unchanged and is
not modeled. -/
structure MMapWriter where
  size : Nat
  offset : Nat
  data : List Nat
deriving DecidableEq, Repr

/-- A fresh writer over a zeroed mapping (`file.Truncate(size)` extends
with zero bytes); open/truncate/mmap failures are I/O errors outside the
model. -/
def newMMapWriter (size : Nat) : MMapWriter := ⟨size, 0, List.replicate size 0⟩

/-- Overwrite `data[start:start+len(b)]` with `b` (Go `copy` into a
destination slice of exactly `len(b)` bytes). -/
def writeBytes (data : List Nat) (start : Nat) (b : List Nat) : List Nat :=
  data.take start ++ b ++ data.drop (start + b.length)

/-- `MMapWriter.Write` (lines 54-81): reserve by fetch-add, wrap when the
reservation exceeds capacity, then copy into the mapping.  `none` models
the Go slice-bounds panic when `data[start:offset]` leaves the region. -/
def mmapWrite (w : MMapWriter) (b : List Nat) : Option MMapWriter :=
  let n := b.length
  if n = 0 then some w
  else
    let off0 := w.offset + n
    let off := if off0 > w.size then n else off0
    let start := off - n
    if off ≤ w.data.length then
      some { w with offset := off, data := writeBytes w.data start b }
    else none

/-- Sequential composition of mmap writes. -/
def mmapWriteList (w : MMapWriter) : List (List Nat) → Option MMapWriter
  | [] => some w
  | b :: bs =>
    match mmapWrite w b with
    | none => none
    | some w1 => mmapWriteList w1 bs

/-! ## Theorems -/

/-! ### Arithmetic facts about the byte reads -/

theorem shiftLeft_lor_distrib (x y k : Nat) :
    (x ||| y) <<< k = x <<< k ||| y <<< k := by
  apply Nat.eq_of_testBit_eq; intro j
  simp [Nat.testBit_shiftLeft, Nat.testBit_or, Bool.and_or_distrib_left]

theorem lor_byte_chain (acc b k : Nat) (hb : b < 256) :
    (acc <<< (k + 8)) ||| b <<< k = (acc <<< 8 + b) <<< k := by
  have h1 : acc <<< (k + 8) = (acc <<< 8) <<< k := by
    simp [Nat.shiftLeft_eq, Nat.pow_add]; ring
  have h2 : (acc <<< 8) ||| b = acc <<< 8 + b := by
    have := Nat.mul_add_lt_is_or (b := b) (i := 8) (by omega) acc
    simp only [Nat.shiftLeft_eq, Nat.mul_comm] at *
    omega
  rw [h1, ← h2, ← shiftLeft_lor_distrib]

theorem lor_low_byte (acc b : Nat) (hb : b < 256) :
    (acc <<< 8) ||| b = acc <<< 8 + b := by
  have := lor_byte_chain acc b 0 hb
  simpa using this

/-- Horner reassembly of the big-endian 8-byte read. -/
theorem readBE64_horner (b0 b1 b2 b3 b4 b5 b6 b7 : Nat)
    (h0 : b0 < 256) (h1 : b1 < 256) (h2 : b2 < 256) (h3 : b3 < 256)
    (h4 : b4 < 256) (h5 : b5 < 256) (h6 : b6 < 256) (h7 : b7 < 256) :
    b0 <<< 56 ||| b1 <<< 48 ||| b2 <<< 40 ||| b3 <<< 32 ||| b4 <<< 24 |||
      b5 <<< 16 ||| b6 <<< 8 ||| b7 =
    ((((((b0 * 256 + b1) * 256 + b2) * 256 + b3) * 256 + b4) * 256 + b5) * 256 + b6)
      * 256 + b7 := by
  have e1 : b0 <<< 56 ||| b1 <<< 48 = (b0 <<< 8 + b1) <<< 48 :=
    lor_byte_chain b0 b1 48 h1
  have e2 : (b0 <<< 8 + b1) <<< 48 ||| b2 <<< 40 = ((b0 <<< 8 + b1) <<< 8 + b2) <<< 40 :=
    lor_byte_chain _ b2 40 h2
  have e3 : ((b0 <<< 8 + b1) <<< 8 + b2) <<< 40 ||| b3 <<< 32 =
      (((b0 <<< 8 + b1) <<< 8 + b2) <<< 8 + b3) <<< 32 :=
    lor_byte_chain _ b3 32 h3
  have e4 : (((b0 <<< 8 + b1) <<< 8 + b2) <<< 8 + b3) <<< 32 ||| b4 <<< 24 =
      ((((b0 <<< 8 + b1) <<< 8 + b2) <<< 8 + b3) <<< 8 + b4) <<< 24 :=
    lor_byte_chain _ b4 24 h4
  have e5 : ((((b0 <<< 8 + b1) <<< 8 + b2) <<< 8 + b3) <<< 8 + b4) <<< 24 ||| b5 <<< 16 =
      (((((b0 <<< 8 + b1) <<< 8 + b2) <<< 8 + b3) <<< 8 + b4) <<< 8 + b5) <<< 16 :=
    lor_byte_chain _ b5 16 h5
  have e6 : (((((b0 <<< 8 + b1) <<< 8 + b2) <<< 8 + b3) <<< 8 + b4) <<< 8 + b5) <<< 16 |||
      b6 <<< 8 =
      ((((((b0 <<< 8 + b1) <<< 8 + b2) <<< 8 + b3) <<< 8 + b4) <<< 8 + b5) <<< 8 + b6) <<< 8 :=
    lor_byte_chain _ b6 8 h6
  have e7 := lor_low_byte
    ((((((b0 <<< 8 + b1) <<< 8 + b2) <<< 8 + b3) <<< 8 + b4) <<< 8 + b5) <<< 8 + b6) b7 h7
  rw [e1, e2, e3, e4, e5, e6, e7]
  simp [Nat.shiftLeft_eq]

theorem readBE32_horner (b0 b1 b2 b3 : Nat)
    (h0 : b0 < 256) (h1 : b1 < 256) (h2 : b2 < 256) (h3 : b3 < 256) :
    b0 <<< 24 ||| b1 <<< 16 ||| b2 <<< 8 ||| b3 =
    ((b0 * 256 + b1) * 256 + b2) * 256 + b3 := by
  have e1 : b0 <<< 24 ||| b1 <<< 16 = (b0 <<< 8 + b1) <<< 16 :=
    lor_byte_chain b0 b1 16 h1
  have e2 : (b0 <<< 8 + b1) <<< 16 ||| b2 <<< 8 = ((b0 <<< 8 + b1) <<< 8 + b2) <<< 8 :=
    lor_byte_chain _ b2 8 h2
  have e3 := lor_low_byte ((b0 <<< 8 + b1) <<< 8 + b2) b3 h3
  rw [e1, e2, e3]
  simp [Nat.shiftLeft_eq]

theorem readBE16_horner (b0 b1 : Nat) (h0 : b0 < 256) (h1 : b1 < 256) :
    b0 <<< 8 ||| b1 = b0 * 256 + b1 := by
  have := lor_low_byte b0 b1 h1
  rw [this]
  simp [Nat.shiftLeft_eq]

/-- Reading back the eight big-endian bytes of `v < 2^64` yields `v`. -/
theorem be64_roundtrip (v : Nat) (hv : v < 2 ^ 64) :
    readBE64 (be64 v) 0 = v := by
  simp only [readBE64, be64, byteAt, List.getD]
  norm_num [List.getElem?_cons_zero, List.getElem?_cons_succ]
  rw [readBE64_horner] <;> first
  | omega
  | · simp only [Nat.shiftRight_eq_div_pow]
      omega

theorem be32_roundtrip (v : Nat) (hv : v < 2 ^ 32) :
    readBE32 (be32 v) 0 = v := by
  simp only [readBE32, be32, byteAt, List.getD]
  norm_num [List.getElem?_cons_zero, List.getElem?_cons_succ]
  rw [readBE32_horner] <;> first
  | omega
  | · simp only [Nat.shiftRight_eq_div_pow]
      omega

theorem be16_roundtrip (v : Nat) (hv : v < 2 ^ 16) :
    readBE16 (be16 v) 0 = v := by
  simp only [readBE16, be16, byteAt, List.getD]
  norm_num [List.getElem?_cons_zero, List.getElem?_cons_succ]
  rw [readBE16_horner] <;> first
  | omega
  | · simp only [Nat.shiftRight_eq_div_pow]
      omega

theorem le64_roundtrip (v : Nat) (hv : v < 2 ^ 64) :
    readLE64 (le64 v) 0 = v := by
  simp only [readLE64, le64, byteAt, List.getD]
  norm_num [List.getElem?_cons_zero, List.getElem?_cons_succ]
  simp only [Nat.shiftRight_eq_div_pow]
  omega


/-! ### Byte-addressing lemmas -/

theorem byteAt_append_left {l r : List Nat} {i : Nat} (h : i < l.length) :
    byteAt (l ++ r) i = byteAt l i := by
  simp [byteAt, List.getD_eq_getElem?_getD, List.getElem?_append_left h]

theorem byteAt_drop (b : List Nat) (n i : Nat) :
    byteAt (b.drop n) i = byteAt b (n + i) := by
  simp [byteAt, List.getD_eq_getElem?_getD, List.getElem?_drop]

theorem readBE64_congr {b1 b2 : List Nat} {p1 p2 : Nat}
    (h : ∀ i, i < 8 → byteAt b1 (p1 + i) = byteAt b2 (p2 + i)) :
    readBE64 b1 p1 = readBE64 b2 p2 := by
  unfold readBE64
  have h0 := h 0 (by omega)
  have h1 := h 1 (by omega)
  have h2 := h 2 (by omega)
  have h3 := h 3 (by omega)
  have h4 := h 4 (by omega)
  have h5 := h 5 (by omega)
  have h6 := h 6 (by omega)
  have h7 := h 7 (by omega)
  simp only [Nat.add_zero] at h0
  rw [h0, h1, h2, h3, h4, h5, h6, h7]

theorem readBE32_congr {b1 b2 : List Nat} {p1 p2 : Nat}
    (h : ∀ i, i < 4 → byteAt b1 (p1 + i) = byteAt b2 (p2 + i)) :
    readBE32 b1 p1 = readBE32 b2 p2 := by
  unfold readBE32
  have h0 := h 0 (by omega)
  have h1 := h 1 (by omega)
  have h2 := h 2 (by omega)
  have h3 := h 3 (by omega)
  simp only [Nat.add_zero] at h0
  rw [h0, h1, h2, h3]

theorem readBE16_congr {b1 b2 : List Nat} {p1 p2 : Nat}
    (h : ∀ i, i < 2 → byteAt b1 (p1 + i) = byteAt b2 (p2 + i)) :
    readBE16 b1 p1 = readBE16 b2 p2 := by
  unfold readBE16
  have h0 := h 0 (by omega)
  have h1 := h 1 (by omega)
  simp only [Nat.add_zero] at h0
  rw [h0, h1]

theorem readLE64_congr {b1 b2 : List Nat} {p1 p2 : Nat}
    (h : ∀ i, i < 8 → byteAt b1 (p1 + i) = byteAt b2 (p2 + i)) :
    readLE64 b1 p1 = readLE64 b2 p2 := by
  unfold readLE64
  have h0 := h 0 (by omega)
  have h1 := h 1 (by omega)
  have h2 := h 2 (by omega)
  have h3 := h 3 (by omega)
  have h4 := h 4 (by omega)
  have h5 := h 5 (by omega)
  have h6 := h 6 (by omega)
  have h7 := h 7 (by omega)
  simp only [Nat.add_zero] at h0
  rw [h0, h1, h2, h3, h4, h5, h6, h7]

theorem readLE32_congr {b1 b2 : List Nat} {p1 p2 : Nat}
    (h : ∀ i, i < 4 → byteAt b1 (p1 + i) = byteAt b2 (p2 + i)) :
    readLE32 b1 p1 = readLE32 b2 p2 := by
  unfold readLE32
  have h0 := h 0 (by omega)
  have h1 := h 1 (by omega)
  have h2 := h 2 (by omega)
  have h3 := h 3 (by omega)
  simp only [Nat.add_zero] at h0
  rw [h0, h1, h2, h3]

theorem readBE64_drop (b : List Nat) (p : Nat) :
    readBE64 b p = readBE64 (b.drop p) 0 :=
  readBE64_congr fun i _ => by rw [byteAt_drop, Nat.zero_add]

theorem readBE32_drop (b : List Nat) (p : Nat) :
    readBE32 b p = readBE32 (b.drop p) 0 :=
  readBE32_congr fun i _ => by rw [byteAt_drop, Nat.zero_add]

theorem readBE16_drop (b : List Nat) (p : Nat) :
    readBE16 b p = readBE16 (b.drop p) 0 :=
  readBE16_congr fun i _ => by rw [byteAt_drop, Nat.zero_add]

theorem readLE64_drop (b : List Nat) (p : Nat) :
    readLE64 b p = readLE64 (b.drop p) 0 :=
  readLE64_congr fun i _ => by rw [byteAt_drop, Nat.zero_add]

theorem readLE32_drop (b : List Nat) (p : Nat) :
    readLE32 b p = readLE32 (b.drop p) 0 :=
  readLE32_congr fun i _ => by rw [byteAt_drop, Nat.zero_add]

theorem readBE64_clean (v : Nat) (rest : List Nat) (hv : v < 2 ^ 64) :
    readBE64 (be64 v ++ rest) 0 = v := by
  have h : readBE64 (be64 v ++ rest) 0 = readBE64 (be64 v) 0 :=
    readBE64_congr fun i hi => byteAt_append_left (by simp [be64]; omega)
  rw [h, be64_roundtrip v hv]

theorem readBE32_clean (v : Nat) (rest : List Nat) (hv : v < 2 ^ 32) :
    readBE32 (be32 v ++ rest) 0 = v := by
  have h : readBE32 (be32 v ++ rest) 0 = readBE32 (be32 v) 0 :=
    readBE32_congr fun i hi => byteAt_append_left (by simp [be32]; omega)
  rw [h, be32_roundtrip v hv]

theorem readBE16_clean (v : Nat) (rest : List Nat) (hv : v < 2 ^ 16) :
    readBE16 (be16 v ++ rest) 0 = v := by
  have h : readBE16 (be16 v ++ rest) 0 = readBE16 (be16 v) 0 :=
    readBE16_congr fun i hi => byteAt_append_left (by simp [be16]; omega)
  rw [h, be16_roundtrip v hv]

theorem readLE64_clean (v : Nat) (rest : List Nat) (hv : v < 2 ^ 64) :
    readLE64 (le64 v ++ rest) 0 = v := by
  have h : readLE64 (le64 v ++ rest) 0 = readLE64 (le64 v) 0 :=
    readLE64_congr fun i hi => byteAt_append_left (by simp [le64]; omega)
  rw [h, le64_roundtrip v hv]

theorem readLE32_clean (v : Nat) (rest : List Nat) (hv : v < 2 ^ 32) :
    readLE32 (le32 v ++ rest) 0 = v := by
  have h : readLE32 (le32 v ++ rest) 0 = readLE32 (le32 v) 0 :=
    readLE32_congr fun i hi => byteAt_append_left (by simp [le32]; omega)
  have h2 : readLE32 (le32 v) 0 = v := by
    simp only [readLE32, le32, byteAt, List.getD]
    norm_num [List.getElem?_cons_zero, List.getElem?_cons_succ]
    simp only [Nat.shiftRight_eq_div_pow]
    omega
  rw [h, h2]

/-! ### Untruncated encoding lemmas (wire format round trip) -/

theorem cleanVal_length (f : Field) : (cleanVal f).length = f.valSize := by
  obtain ⟨key, type, num, str, dat⟩ := f
  cases type <;> simp [cleanVal, Field.valSize, be64, be32, be16] <;> omega

theorem valSize_lower (f : Field) : 2 ≤ f.valSize := by
  obtain ⟨key, type, num, str, dat⟩ := f
  cases type <;> simp [Field.valSize] <;> omega

theorem field_size_eq (f : Field) : f.size = 2 + f.key.length + f.valSize := rfl

theorem cleanField_length (f : Field) : (cleanField f).length = f.size := by
  rw [field_size_eq]
  simp [cleanField, cleanVal_length]
  omega

theorem field_size_lower (f : Field) : 4 ≤ f.size := by
  have h1 := valSize_lower f
  have h2 := field_size_eq f
  omega

theorem encodeFieldVal_clean (r : Nat) (f : Field) (hwf : f.wf) (hs : f.small)
    (hfit : f.valSize + 64 ≤ r) : encodeFieldVal r f = cleanVal f := by
  obtain ⟨key, type, num, str, dat⟩ := f
  obtain ⟨hkey, hrest⟩ := hwf
  obtain ⟨hk255, hstr, hdat⟩ := hs
  replace hstr : str.length ≤ 65535 := hstr
  replace hdat : dat.length ≤ 65535 := hdat
  cases type <;> simp only [Field.valSize] at hfit
  case int => simp only [encodeFieldVal, cleanVal]; rw [if_neg (by omega)]
  case uint => simp only [encodeFieldVal, cleanVal]; rw [if_neg (by omega)]
  case bool => simp only [encodeFieldVal, cleanVal]; rw [if_neg (by omega)]
  case float64 => simp only [encodeFieldVal, cleanVal]; rw [if_neg (by omega)]
  case float32 => simp only [encodeFieldVal, cleanVal]; rw [if_neg (by omega)]
  case string =>
    simp only [encodeFieldVal, cleanVal]
    rw [if_neg (by omega)]
    have hsl : min (min str.length (r - 2)) 65535 = str.length := by omega
    simp only [hsl, List.take_length]
  case bytes =>
    obtain ⟨hdb, hn, he⟩ := hrest
    replace hn : num = dat.length := hn
    simp only [encodeFieldVal, cleanVal]
    rw [if_neg (by omega)]
    have hdl : min (min num (r - 2)) 65535 = dat.length := by omega
    simp only [hdl, List.take_length]

theorem encodeField_clean (L : Nat) (f : Field) (hwf : f.wf) (hs : f.small)
    (hfit : f.size + 64 ≤ L) : encodeField L f = cleanField f := by
  have hsz := field_size_eq f
  have hval := valSize_lower f
  have hL10 : ¬ L < 10 := by omega
  have hk255 : f.key.length ≤ 255 := hs.1
  have hkl : min (min f.key.length 255) (L - 2) = f.key.length := by omega
  simp only [encodeField, if_neg hL10, hkl, List.take_length, cleanField]
  rw [encodeFieldVal_clean _ f hwf hs (by omega)]

theorem encodeFields_clean : ∀ (fields : List Field) (pos : Nat),
    (∀ f ∈ fields, f.wf ∧ f.small) →
    pos + (fields.map Field.size).sum ≤ structuredBufLen - 64 →
    encodeFields pos fields = (fields.map cleanField).flatten := by
  intro fields
  induction fields with
  | nil => intro pos _ _; rfl
  | cons f fs ih =>
    intro pos hall hfit
    have hf := hall f (by simp)
    have hfs : ∀ g ∈ fs, g.wf ∧ g.small := fun g hg => hall g (by simp [hg])
    simp only [List.map_cons, List.sum_cons, structuredBufLen] at hfit
    have hsz4 := field_size_lower f
    have hpos : pos < structuredBufLen - 64 := by
      simp only [structuredBufLen]; omega
    simp only [encodeFields, if_pos hpos]
    rw [encodeField_clean _ f hf.1 hf.2 (by simp only [structuredBufLen]; omega)]
    rw [cleanField_length]
    rw [ih (pos + f.size) hfs (by simp only [structuredBufLen]; omega)]
    simp

theorem decodeFieldValueM_clean (f : Field) (rest : List Nat)
    (hwf : f.wf) (hs : f.small) :
    decodeFieldValueM f.key (cleanVal f ++ rest) f.type.toTag = some f ∧
    fieldValueSizeM (cleanVal f ++ rest) f.type.toTag = f.valSize := by
  obtain ⟨key, type, num, str, dat⟩ := f
  obtain ⟨hkey, hrest⟩ := hwf
  obtain ⟨hk255, hstr, hdat⟩ := hs
  replace hstr : str.length ≤ 65535 := hstr
  replace hdat : dat.length ≤ 65535 := hdat
  cases type
  case int =>
    obtain ⟨hn, he1, he2⟩ := hrest
    replace hn : num < 2 ^ 64 := hn
    replace he1 : str = [] := he1
    replace he2 : dat = [] := he2
    subst he1; subst he2
    have hrd : readBE64 (cleanVal ⟨key, .int, num, [], []⟩ ++ rest) 0 = num := by
      simp only [cleanVal]; exact readBE64_clean num rest hn
    have hlen : 8 ≤ (cleanVal ⟨key, .int, num, [], []⟩).length + rest.length := by
      simp only [cleanVal, List.length_append, be64, List.length_cons,
        List.length_nil]
      omega
    constructor
    · simp [decodeFieldValueM, FieldType.toTag, hlen, hrd]
    · simp [fieldValueSizeM, FieldType.toTag, Field.valSize]
  case uint =>
    obtain ⟨hn, he1, he2⟩ := hrest
    replace hn : num < 2 ^ 64 := hn
    replace he1 : str = [] := he1
    replace he2 : dat = [] := he2
    subst he1; subst he2
    have hrd : readBE64 (cleanVal ⟨key, .uint, num, [], []⟩ ++ rest) 0 = num := by
      simp only [cleanVal]; exact readBE64_clean num rest hn
    have hlen : 8 ≤ (cleanVal ⟨key, .uint, num, [], []⟩).length + rest.length := by
      simp only [cleanVal, List.length_append, be64, List.length_cons,
        List.length_nil]
      omega
    constructor
    · simp [decodeFieldValueM, FieldType.toTag, hlen, hrd]
    · simp [fieldValueSizeM, FieldType.toTag, Field.valSize]
  case bool =>
    obtain ⟨hn, he1, he2⟩ := hrest
    replace hn : num < 2 := hn
    replace he1 : str = [] := he1
    replace he2 : dat = [] := he2
    subst he1; subst he2
    have hrd : readBE64 (cleanVal ⟨key, .bool, num, [], []⟩ ++ rest) 0 = num := by
      simp only [cleanVal]; exact readBE64_clean num rest (by omega)
    have hlen : 8 ≤ (cleanVal ⟨key, .bool, num, [], []⟩).length + rest.length := by
      simp only [cleanVal, List.length_append, be64, List.length_cons,
        List.length_nil]
      omega
    constructor
    · simp [decodeFieldValueM, FieldType.toTag, hlen, hrd]
    · simp [fieldValueSizeM, FieldType.toTag, Field.valSize]
  case float64 =>
    obtain ⟨hn, he1, he2⟩ := hrest
    replace hn : num < 2 ^ 64 := hn
    replace he1 : str = [] := he1
    replace he2 : dat = [] := he2
    subst he1; subst he2
    have hrd : readBE64 (cleanVal ⟨key, .float64, num, [], []⟩ ++ rest) 0 = num := by
      simp only [cleanVal]; exact readBE64_clean num rest hn
    have hlen : 8 ≤ (cleanVal ⟨key, .float64, num, [], []⟩).length + rest.length := by
      simp only [cleanVal, List.length_append, be64, List.length_cons,
        List.length_nil]
      omega
    constructor
    · simp [decodeFieldValueM, FieldType.toTag, hlen, hrd]
    · simp [fieldValueSizeM, FieldType.toTag, Field.valSize]
  case float32 =>
    obtain ⟨hn, he1, he2⟩ := hrest
    replace hn : num < 2 ^ 32 := hn
    replace he1 : str = [] := he1
    replace he2 : dat = [] := he2
    subst he1; subst he2
    have hmod : num % 2 ^ 32 = num := Nat.mod_eq_of_lt hn
    have hrd : readBE32 (cleanVal ⟨key, .float32, num, [], []⟩ ++ rest) 0 = num := by
      simp only [cleanVal, hmod]; exact readBE32_clean num rest hn
    have hlen : 4 ≤ (cleanVal ⟨key, .float32, num, [], []⟩).length + rest.length := by
      simp only [cleanVal, List.length_append, be32, List.length_cons,
        List.length_nil]
      omega
    constructor
    · simp [decodeFieldValueM, FieldType.toTag, hlen, hrd]
    · simp [fieldValueSizeM, FieldType.toTag, Field.valSize]
  case string =>
    obtain ⟨hsb, hn, he2⟩ := hrest
    replace hn : num = 0 := hn
    replace he2 : dat = [] := he2
    subst he2
    have hassoc : cleanVal ⟨key, .string, num, str, []⟩ ++ rest =
        be16 str.length ++ (str ++ rest) := by
      simp [cleanVal]
    have hrd : readBE16 (be16 str.length ++ (str ++ rest)) 0 = str.length :=
      readBE16_clean str.length (str ++ rest) (by omega)
    have hlen : (be16 str.length ++ (str ++ rest)).length =
        2 + (str.length + rest.length) := by
      simp [be16]; omega
    have h2 : 2 ≤ (be16 str.length ++ (str ++ rest)).length := by omega
    have h3 : 2 + str.length ≤ (be16 str.length ++ (str ++ rest)).length := by omega
    have hdrop2 : (be16 str.length ++ (str ++ rest)).drop 2 = str ++ rest := by
      simp [be16]
    have htake : (str ++ rest).take str.length = str := List.take_left' rfl
    have hbl : (be16 str.length).length = 2 := by simp [be16]
    constructor
    · rw [show decodeFieldValueM key (cleanVal ⟨key, .string, num, str, []⟩ ++ rest)
          (FieldType.toTag .string) =
          decodeFieldValueM key (be16 str.length ++ (str ++ rest)) 4 from by
        rw [hassoc]; rfl]
      simp [decodeFieldValueM, h2, hrd, h3, hdrop2, htake, hn, hbl]
    · rw [show fieldValueSizeM (cleanVal ⟨key, .string, num, str, []⟩ ++ rest)
          (FieldType.toTag .string) =
          fieldValueSizeM (be16 str.length ++ (str ++ rest)) 4 from by
        rw [hassoc]; rfl]
      simp [fieldValueSizeM, h2, hrd, Field.valSize, hbl]
  case bytes =>
    obtain ⟨hdb, hn, he2⟩ := hrest
    replace hn : num = dat.length := hn
    replace he2 : str = [] := he2
    subst he2
    have hassoc : cleanVal ⟨key, .bytes, num, [], dat⟩ ++ rest =
        be16 dat.length ++ (dat ++ rest) := by
      simp [cleanVal]
    have hrd : readBE16 (be16 dat.length ++ (dat ++ rest)) 0 = dat.length :=
      readBE16_clean dat.length (dat ++ rest) (by omega)
    have hlen : (be16 dat.length ++ (dat ++ rest)).length =
        2 + (dat.length + rest.length) := by
      simp [be16]; omega
    have h2 : 2 ≤ (be16 dat.length ++ (dat ++ rest)).length := by omega
    have h3 : 2 + dat.length ≤ (be16 dat.length ++ (dat ++ rest)).length := by omega
    have hdrop2 : (be16 dat.length ++ (dat ++ rest)).drop 2 = dat ++ rest := by
      simp [be16]
    have htake : (dat ++ rest).take dat.length = dat := List.take_left' rfl
    have hbl : (be16 dat.length).length = 2 := by simp [be16]
    constructor
    · rw [show decodeFieldValueM key (cleanVal ⟨key, .bytes, num, [], dat⟩ ++ rest)
          (FieldType.toTag .bytes) =
          decodeFieldValueM key (be16 dat.length ++ (dat ++ rest)) 6 from by
        rw [hassoc]; rfl]
      simp [decodeFieldValueM, h2, hrd, h3, hdrop2, htake, hn, hbl]
    · rw [show fieldValueSizeM (cleanVal ⟨key, .bytes, num, [], dat⟩ ++ rest)
          (FieldType.toTag .bytes) =
          fieldValueSizeM (be16 dat.length ++ (dat ++ rest)) 6 from by
        rw [hassoc]; rfl]
      simp [fieldValueSizeM, h2, hrd, Field.valSize, hbl]


theorem drop_add (b : List Nat) (m k : Nat) : b.drop (m + k) = (b.drop m).drop k := by
  rw [List.drop_drop, Nat.add_comm]

theorem drop_at (b : List Nat) {m k n : Nat} (h : m + k = n) :
    b.drop n = (b.drop m).drop k := by
  rw [← h, List.drop_drop]

theorem cleanField_ne_nil (f : Field) : cleanField f ≠ [] := by
  simp [cleanField]

theorem decodeFieldsM_clean : ∀ (fs : List Field) (b : List Nat) (pos : Nat),
    (∀ f ∈ fs, f.wf ∧ f.small) →
    b.drop pos = (fs.map cleanField).flatten →
    decodeFieldsM b pos fs.length = fs.map some := by
  intro fs
  induction fs with
  | nil => intro b pos _ _; rfl
  | cons f rest ih =>
    intro b pos hall hdrop
    obtain ⟨hwf, hs⟩ := hall f (by simp)
    have hrest : ∀ g ∈ rest, g.wf ∧ g.small := fun g hg => hall g (by simp [hg])
    have hdrop1 : b.drop pos = cleanField f ++ (rest.map cleanField).flatten := by
      simpa using hdrop
    have hlenJ : b.length - pos = f.size + ((rest.map cleanField).flatten).length := by
      have h := congrArg List.length hdrop1
      simpa [cleanField_length] using h
    have h4 := field_size_lower f
    have hse := field_size_eq f
    have hv2 := valSize_lower f
    have hblen : b.length = pos + f.size + ((rest.map cleanField).flatten).length := by
      omega
    have hkl : byteAt b pos = f.key.length := by
      have h := byteAt_drop b pos 0
      rw [hdrop1] at h
      simpa [cleanField, byteAt] using h.symm
    have hd1 : b.drop (pos + 1) =
        f.key ++ (f.type.toTag :: (cleanVal f ++ (rest.map cleanField).flatten)) := by
      rw [drop_add b pos 1, hdrop1]
      simp [cleanField]
    have hkey : (b.drop (pos + 1)).take f.key.length = f.key := by
      rw [hd1]
      exact List.take_left' rfl
    have hd2 : b.drop (pos + 1 + f.key.length) =
        f.type.toTag :: (cleanVal f ++ (rest.map cleanField).flatten) := by
      rw [drop_add b (pos + 1) f.key.length, hd1, List.drop_left' rfl]
    have htag : byteAt b (pos + 1 + f.key.length) = f.type.toTag := by
      have h := byteAt_drop b (pos + 1 + f.key.length) 0
      rw [hd2] at h
      simpa [byteAt] using h.symm
    have hd3 : b.drop (pos + 2 + f.key.length) =
        cleanVal f ++ (rest.map cleanField).flatten := by
      have e23 : pos + 2 + f.key.length = pos + 1 + f.key.length + 1 := by omega
      rw [e23, drop_add b (pos + 1 + f.key.length) 1, hd2]
      rfl
    obtain ⟨hdec, hsize⟩ :=
      decodeFieldValueM_clean f ((rest.map cleanField).flatten) hwf hs
    simp only [List.length_cons, List.map_cons, decodeFieldsM]
    rw [if_pos (show pos < b.length from by omega)]
    simp only [hkl]
    rw [if_neg (show ¬ pos + 1 + f.key.length > b.length from by omega)]
    rw [hkey]
    rw [if_neg (show ¬ b.length ≤ pos + 1 + f.key.length from by omega)]
    rw [htag, hd3, hdec, hsize]
    congr 1
    apply ih _ _ hrest
    rw [drop_add b (pos + 2 + f.key.length) f.valSize, hd3,
      List.drop_left' (cleanVal_length f)]


/-- C1 (amended): round trip of the structured encoder through the
renderer's decoder.  For every record with a byte-string message of at
most 255 bytes, at most 255 well-formed fields with keys of at most 255
bytes and string/blob values of at most 65535 bytes, and — the amendment —
whose total untruncated encoding fits within the 1024-byte pooled buffer
minus the encoder's 64-byte tail guard (`recordSize ≤ 960`), decoding the
encoder's bytes recovers exactly the original level, sequence, timestamp,
message, and ordered field list. -/
theorem logFields_roundtrip (level seq ts : Nat) (msg : List Nat)
    (fields : List Field)
    (hlevel : level < 256) (hseq : seq < 2 ^ 64) (hts : ts < 2 ^ 64)
    (hmsgb : allBytes msg) (hmsg : msg.length ≤ 255)
    (hfc : fields.length ≤ 255)
    (hall : ∀ f ∈ fields, f.wf ∧ f.small)
    (hfit : recordSize msg fields ≤ structuredBufLen - 64) :
    decodeRecord (logFieldsBytes level seq ts msg fields) =
      some ⟨level, seq, ts, msg, fields.map some⟩ := by
  have hmin : min msg.length 255 = msg.length := by omega
  have hfcm : min fields.length 255 = fields.length := by omega
  simp only [recordSize, structuredBufLen] at hfit
  have hF : encodeFields (24 + msg.length) fields =
      (fields.map cleanField).flatten := by
    apply encodeFields_clean fields (24 + msg.length) hall
    simp only [structuredBufLen]
    omega
  set b := logFieldsBytes level seq ts msg fields with hbdef
  have hb : b = le32 MagicHeader ++ ([Version, level % 256] ++ (le64 seq ++
      (le64 ts ++ ([msg.length] ++ (msg ++ ([fields.length] ++
        (fields.map cleanField).flatten)))))) := by
    rw [hbdef]
    simp only [logFieldsBytes, writeBinaryHeader, hmin, hfcm, List.take_length, hF]
    simp [List.append_assoc]
  have hdrop4 : b.drop 4 = [Version, level % 256] ++ (le64 seq ++
      (le64 ts ++ ([msg.length] ++ (msg ++ ([fields.length] ++
        (fields.map cleanField).flatten))))) := by
    rw [hb]
    exact List.drop_left' (by simp [le32])
  have hdrop6 : b.drop 6 = le64 seq ++ (le64 ts ++ ([msg.length] ++ (msg ++
      ([fields.length] ++ (fields.map cleanField).flatten)))) := by
    rw [drop_at b (show 4 + 2 = 6 from rfl), hdrop4]
    rfl
  have hdrop14 : b.drop 14 = le64 ts ++ ([msg.length] ++ (msg ++
      ([fields.length] ++ (fields.map cleanField).flatten))) := by
    rw [drop_at b (show 6 + 8 = 14 from rfl), hdrop6]
    exact List.drop_left' (by simp [le64])
  have hdrop22 : b.drop 22 = [msg.length] ++ (msg ++
      ([fields.length] ++ (fields.map cleanField).flatten)) := by
    rw [drop_at b (show 14 + 8 = 22 from rfl), hdrop14]
    exact List.drop_left' (by simp [le64])
  have hdrop23 : b.drop 23 = msg ++ ([fields.length] ++
      (fields.map cleanField).flatten) := by
    rw [drop_at b (show 22 + 1 = 23 from rfl), hdrop22]
    rfl
  have hdropP : b.drop (23 + msg.length) = [fields.length] ++
      (fields.map cleanField).flatten := by
    rw [drop_add b 23 msg.length, hdrop23]
    exact List.drop_left' rfl
  have hdropQ : b.drop (23 + msg.length + 1) =
      (fields.map cleanField).flatten := by
    rw [drop_add b (23 + msg.length) 1, hdropP]
    rfl
  have hlen : b.length = 24 + msg.length +
      ((fields.map cleanField).flatten).length := by
    have h := congrArg List.length hb
    simp only [le32, le64, List.length_append, List.length_cons, List.length_nil] at h
    omega
  have hmagic : readLE32 b 0 = MagicHeader := by
    rw [hb]
    exact readLE32_clean MagicHeader _ (by norm_num [MagicHeader])
  have hlevelb : byteAt b 5 = level := by
    have h := byteAt_drop b 4 1
    norm_num at h
    rw [← h, hdrop4]
    simp [byteAt, List.getD]
    omega
  have hseqr : readLE64 b 6 = seq := by
    rw [readLE64_drop, hdrop6]
    exact readLE64_clean seq _ hseq
  have htsr : readLE64 b 14 = ts := by
    rw [readLE64_drop, hdrop14]
    exact readLE64_clean ts _ hts
  have hbyte22 : byteAt b 22 = msg.length := by
    have h := byteAt_drop b 22 0
    norm_num at h
    rw [← h, hdrop22]
    simp [byteAt]
  have hbyteP : byteAt b (23 + msg.length) = fields.length := by
    have h := byteAt_drop b (23 + msg.length) 0
    norm_num at h
    rw [← h, hdropP]
    simp [byteAt]
  have hmsgr : (b.drop 23).take msg.length = msg := by
    rw [hdrop23]
    exact List.take_left' rfl
  have hfieldsr : decodeFieldsM b (23 + msg.length + 1) fields.length =
      fields.map some :=
    decodeFieldsM_clean fields b (23 + msg.length + 1) hall hdropQ
  simp only [decodeRecord]
  rw [if_neg (show ¬ b.length < 22 from by omega)]
  rw [if_neg (show ¬ readLE32 b 0 ≠ MagicHeader from by rw [hmagic]; simp)]
  rw [if_pos (show 22 < b.length from by omega)]
  rw [hbyte22]
  rw [if_pos (show 23 + msg.length ≤ b.length from by omega)]
  simp only [hmsgr]
  rw [if_pos (show 23 + msg.length < b.length from by omega)]
  rw [hbyteP, hfieldsr, hlevelb, hseqr, htsr]


/-- Any record bytes of the right shape decode to their message: the
22-byte header is `le32 magic ++ mid`, then the message length byte, the
message, and arbitrary trailing field bytes. -/
theorem decodeRecord_msg (mid : List Nat) (hmid : mid.length = 18)
    (mbytes tail : List Nat) :
    (decodeRecord (le32 MagicHeader ++
      (mid ++ ([mbytes.length] ++ (mbytes ++ tail))))).map DecRecord.msg =
    some mbytes := by
  set b := le32 MagicHeader ++ (mid ++ ([mbytes.length] ++ (mbytes ++ tail)))
    with hbdef
  have hlen : b.length = 23 + mbytes.length + tail.length := by
    rw [hbdef]
    simp [le32]
    omega
  have hmagic : readLE32 b 0 = MagicHeader := by
    rw [hbdef]
    exact readLE32_clean MagicHeader _ (by norm_num [MagicHeader])
  have hdrop22 : b.drop 22 = [mbytes.length] ++ (mbytes ++ tail) := by
    rw [hbdef, show le32 MagicHeader ++ (mid ++ ([mbytes.length] ++ (mbytes ++ tail))) =
      (le32 MagicHeader ++ mid) ++ ([mbytes.length] ++ (mbytes ++ tail)) from by simp]
    exact List.drop_left' (by simp [le32, hmid])
  have hdrop23 : b.drop 23 = mbytes ++ tail := by
    rw [drop_at b (show 22 + 1 = 23 from rfl), hdrop22]
    rfl
  have hbyte22 : byteAt b 22 = mbytes.length := by
    have h := byteAt_drop b 22 0
    norm_num at h
    rw [← h, hdrop22]
    simp [byteAt]
  have hmsgr : (b.drop 23).take mbytes.length = mbytes := by
    rw [hdrop23]
    exact List.take_left' rfl
  simp only [decodeRecord]
  rw [if_neg (show ¬ b.length < 22 from by omega)]
  rw [if_neg (show ¬ readLE32 b 0 ≠ MagicHeader from by rw [hmagic]; simp)]
  rw [if_pos (show 22 < b.length from by omega)]
  rw [hbyte22]
  rw [if_pos (show 23 + mbytes.length ≤ b.length from by omega)]
  simp only [hmsgr]
  rfl

/-- Message truncation on the structured path: any 300-byte message
decodes back as exactly its 255-byte front. -/
theorem logFields_msg300 (level seq ts : Nat) (msg : List Nat)
    (fields : List Field) (h300 : msg.length = 300) :
    (decodeRecord (logFieldsBytes level seq ts msg fields)).map DecRecord.msg =
      some (msg.take 255) := by
  have hmin : min msg.length 255 = 255 := by omega
  have hmt : (msg.take 255).length = 255 := by
    rw [List.length_take]
    omega
  have hb : logFieldsBytes level seq ts msg fields =
      le32 MagicHeader ++ (([Version, level % 256] ++ (le64 seq ++ le64 ts)) ++
        ([(msg.take 255).length] ++ (msg.take 255 ++
          ([min fields.length 255] ++
            encodeFields (24 + 255) (fields.take (min fields.length 255)))))) := by
    simp only [logFieldsBytes, writeBinaryHeader, hmin, hmt]
    simp [List.append_assoc]
  rw [hb]
  exact decodeRecord_msg _ (by simp [le64]) _ _

/-- Message truncation on the plain `logDirect` path: the 256-byte stack
buffer leaves room for `256 - 22 - 1 = 233` message bytes, so a 300-byte
message decodes back as its 233-byte front. -/
theorem logDirect_msg300 (level seq ts : Nat) (msg : List Nat)
    (h300 : msg.length = 300) :
    (decodeRecord (logDirectBytes level seq ts msg)).map DecRecord.msg =
      some (msg.take 233) := by
  have hmin : min (min msg.length (256 - 22 - 1)) 255 = 233 := by omega
  have hmt : (msg.take 233).length = 233 := by
    rw [List.length_take]
    omega
  have hb : logDirectBytes level seq ts msg =
      le32 MagicHeader ++ (([Version, level % 256] ++ (le64 seq ++ le64 ts)) ++
        ([(msg.take 233).length] ++ (msg.take 233 ++ []))) := by
    simp only [logDirectBytes, writeBinaryHeader, hmin, hmt]
    rw [if_pos (by omega)]
    simp [List.append_assoc]
  rw [hb]
  exact decodeRecord_msg _ (by simp [le64]) _ _


set_option maxRecDepth 100000 in
set_option maxHeartbeats 2000000 in
/-- C1 counterexample: a record within the claim's stated caps (255
one-byte-key boolean fields) whose untruncated encoding exceeds the
pooled buffer; the encoder's field loop stops at the 64-byte tail guard
after 86 fields while still writing field-count byte 255, so decoding the
encoder's bytes does not recover the original field list. -/
theorem c1_counterexample :
    decodeRecord (logFieldsBytes 1 1 0 []
      (List.replicate 255 (boolField [107] true))) ≠
    some ⟨1, 1, 0, [], (List.replicate 255 (boolField [107] true)).map some⟩ := by
  decide

/-- Witness for C1 at a concrete record: one uint field and one string
field round-trip exactly. -/
theorem c1_witness :
    decodeRecord (logFieldsBytes 1 5 9 [104, 105]
      [uintField [107] 7, strField [115] [97, 98]]) =
    some ⟨1, 5, 9, [104, 105],
      [some (uintField [107] 7), some (strField [115] [97, 98])]⟩ :=
  logFields_roundtrip 1 5 9 [104, 105]
    [uintField [107] 7, strField [115] [97, 98]]
    (by decide) (by decide) (by decide) (by decide) (by decide) (by decide)
    (by decide) (by decide)

theorem minBlock_length (n : Nat) : (minBlock n).length = 4 * n := by
  induction n with
  | zero => rfl
  | succ n ih => simp [minBlock, ih]; omega

theorem minBlock_succ (n : Nat) :
    minBlock (n + 1) = [0, 4, 0, 0] ++ minBlock n := rfl

theorem encodeField_minStr (L : Nat) (h : 10 ≤ L) :
    encodeField L (strField [] []) = [0, 4, 0, 0] := by
  simp only [encodeField, strField, encodeFieldVal]
  rw [if_neg (show ¬ L < 10 from by omega)]
  simp only [List.length_nil, Nat.zero_min, Nat.min_zero, List.take_nil]
  rw [if_neg (show ¬ L - (0 + 2) < 2 from by omega)]
  simp [be16, FieldType.toTag]

theorem encodeFields_minStr : ∀ (n m pos : Nat), pos + 4 * n = 960 →
    encodeFields pos (List.replicate (n + m) (strField [] [])) = minBlock n := by
  intro n
  induction n with
  | zero =>
    intro m pos hp
    rw [Nat.zero_add]
    cases m with
    | zero => rfl
    | succ m =>
      rw [List.replicate_succ]
      simp only [encodeFields]
      rw [if_neg (show ¬ pos < structuredBufLen - 64 from by
        simp only [structuredBufLen]; omega)]
      rfl
  | succ n ih =>
    intro m pos hp
    rw [show n + 1 + m = (n + m) + 1 from by omega, List.replicate_succ]
    simp only [encodeFields]
    rw [if_pos (show pos < structuredBufLen - 64 from by
      simp only [structuredBufLen]; omega)]
    rw [encodeField_minStr (structuredBufLen - pos) (by
      simp only [structuredBufLen]; omega)]
    show [0, 4, 0, 0] ++
        encodeFields (pos + 4) (List.replicate (n + m) (strField [] [])) =
      minBlock (n + 1)
    rw [ih m (pos + 4) (by omega)]
    rfl

theorem decodeFieldsM_minBlock : ∀ (r n : Nat) (pre : List Nat), r ≤ n →
    (decodeFieldsM (pre ++ minBlock r) pre.length n).length = r := by
  intro r
  induction r with
  | zero =>
    intro n pre h
    cases n with
    | zero => rfl
    | succ n =>
      simp only [decodeFieldsM]
      rw [if_neg (show ¬ pre.length < (pre ++ minBlock 0).length from by
        simp [minBlock])]
      rfl
  | succ r ih =>
    intro n pre h
    obtain ⟨n', rfl⟩ : ∃ n', n = n' + 1 := ⟨n - 1, by omega⟩
    have hlen : (pre ++ minBlock (r + 1)).length = pre.length + 4 * (r + 1) := by
      simp [minBlock_length]
    have hdropP : (pre ++ minBlock (r + 1)).drop pre.length = minBlock (r + 1) :=
      List.drop_left pre _
    have hb0 : byteAt (pre ++ minBlock (r + 1)) pre.length = 0 := by
      have h := byteAt_drop (pre ++ minBlock (r + 1)) pre.length 0
      rw [hdropP] at h
      simpa [minBlock, byteAt] using h.symm
    have hb1 : byteAt (pre ++ minBlock (r + 1)) (pre.length + 1) = 4 := by
      have h := byteAt_drop (pre ++ minBlock (r + 1)) pre.length 1
      rw [hdropP] at h
      simpa [minBlock, byteAt] using h.symm
    have hdrop2 : (pre ++ minBlock (r + 1)).drop (pre.length + 2) =
        0 :: 0 :: minBlock r := by
      rw [drop_add, hdropP]
      rfl
    have hsz : fieldValueSizeM (0 :: 0 :: minBlock r) 4 = 2 := by
      unfold fieldValueSizeM
      rw [if_neg (by norm_num), if_neg (by norm_num), if_pos (by norm_num)]
      rw [if_pos (show 2 ≤ (0 :: 0 :: minBlock r).length from by simp)]
      simp [readBE16, byteAt]
    simp only [decodeFieldsM]
    rw [if_pos (show pre.length < (pre ++ minBlock (r + 1)).length from by
      rw [hlen]; omega)]
    simp only [hb0]
    rw [if_neg (show ¬ pre.length + 1 + 0 > (pre ++ minBlock (r + 1)).length from by
      rw [hlen]; omega)]
    rw [if_neg (show ¬ (pre ++ minBlock (r + 1)).length ≤ pre.length + 1 + 0 from by
      rw [hlen]; omega)]
    rw [show pre.length + 1 + 0 = pre.length + 1 from rfl, hb1]
    rw [show pre.length + 2 + 0 = pre.length + 2 from rfl, hdrop2]
    rw [hsz]
    have hre : pre ++ minBlock (r + 1) = (pre ++ [0, 4, 0, 0]) ++ minBlock r := by
      rw [minBlock_succ]
      simp
    have hpos : pre.length + 2 + 2 = (pre ++ [0, 4, 0, 0]).length := by
      simp
    rw [hre, hpos]
    simp only [List.length_cons]
    rw [ih n' (pre ++ [0, 4, 0, 0]) (by omega)]

theorem decodeRecord_minBlock_len (mid : List Nat) (hmid : mid.length = 18) :
    (decodeRecord (le32 MagicHeader ++
        (mid ++ ([0] ++ ([255] ++ minBlock 234))))).map
      (fun r => r.fields.length) = some 234 := by
  set b := le32 MagicHeader ++ (mid ++ ([0] ++ ([255] ++ minBlock 234))) with hbdef
  have hlen : b.length = 960 := by
    rw [hbdef]
    simp [le32, minBlock_length, hmid]
  have hmagic : readLE32 b 0 = MagicHeader := by
    rw [hbdef]
    exact readLE32_clean MagicHeader _ (by norm_num [MagicHeader])
  have hdrop22 : b.drop 22 = [0] ++ ([255] ++ minBlock 234) := by
    rw [hbdef, show le32 MagicHeader ++ (mid ++ ([0] ++ ([255] ++ minBlock 234))) =
      (le32 MagicHeader ++ mid) ++ ([0] ++ ([255] ++ minBlock 234)) from by simp]
    exact List.drop_left' (by simp [le32, hmid])
  have hbyte22 : byteAt b 22 = 0 := by
    have h := byteAt_drop b 22 0
    norm_num at h
    rw [← h, hdrop22]
    rfl
  have hbyte23 : byteAt b 23 = 255 := by
    have h := byteAt_drop b 22 1
    norm_num at h
    rw [← h, hdrop22]
    rfl
  have hfields : decodeFieldsM b 24 255 = decodeFieldsM
      ((le32 MagicHeader ++ mid ++ [0] ++ [255]) ++ minBlock 234)
      (le32 MagicHeader ++ mid ++ [0] ++ [255]).length 255 := by
    rw [hbdef]
    have h1 : le32 MagicHeader ++ (mid ++ ([0] ++ ([255] ++ minBlock 234))) =
        (le32 MagicHeader ++ mid ++ [0] ++ [255]) ++ minBlock 234 := by simp
    have h2 : (le32 MagicHeader ++ mid ++ [0] ++ [255]).length = 24 := by
      simp [le32, hmid]
    rw [h1, h2]
  simp only [decodeRecord]
  rw [if_neg (show ¬ b.length < 22 from by omega)]
  rw [if_neg (show ¬ readLE32 b 0 ≠ MagicHeader from by rw [hmagic]; simp)]
  rw [if_pos (show 22 < b.length from by omega)]
  rw [hbyte22]
  rw [if_pos (show 23 + 0 ≤ b.length from by omega)]
  rw [if_pos (show 23 + 0 < b.length from by omega)]
  rw [show (23 : Nat) + 0 + 1 = 24 from rfl, show (23 : Nat) + 0 = 23 from rfl,
    hbyte23, hfields]
  simp only [Option.map_some']
  rw [decodeFieldsM_minBlock 234 255 (le32 MagicHeader ++ mid ++ [0] ++ [255])
    (by omega)]

theorem c2_fieldcount_aux :
    (decodeRecord (logFieldsBytes 1 1 0 []
        (List.replicate 300 (strField [] [])))).map (fun r => r.fields.length) =
      some 234 := by
  have hfe : encodeFields 24 (List.replicate 255 (strField [] [])) =
      minBlock 234 := by
    have h := encodeFields_minStr 234 21 24 (by norm_num)
    norm_num at h
    exact h
  have hb : logFieldsBytes 1 1 0 [] (List.replicate 300 (strField [] [])) =
      le32 MagicHeader ++ (([Version, 1 % 256] ++ (le64 1 ++ le64 0)) ++
        ([0] ++ ([255] ++ minBlock 234))) := by
    simp only [logFieldsBytes, writeBinaryHeader]
    norm_num
    exact hfe
  rw [hb]
  exact decodeRecord_minBlock_len _ (by simp [le64])


/-- C2 (amended): truncation bounds.  A 300-byte message decodes to its
255-byte front on the structured `logFields` path, but to its 233-byte
front on the plain `logDirect` path (256-byte stack buffer minus the
23 header-and-length bytes); and a structured call with 300 fields writes
field-count byte 255 but the 1024-byte pooled buffer holds at most 234
minimal fields, so (with minimal 4-byte fields) exactly 234 fields
decode. -/
theorem c2_truncation_amended :
    (∀ (level seq ts : Nat) (msg : List Nat) (fields : List Field),
      msg.length = 300 →
      (decodeRecord (logFieldsBytes level seq ts msg fields)).map DecRecord.msg =
        some (msg.take 255)) ∧
    (∀ (level seq ts : Nat) (msg : List Nat), msg.length = 300 →
      (decodeRecord (logDirectBytes level seq ts msg)).map DecRecord.msg =
        some (msg.take 233)) ∧
    (decodeRecord (logFieldsBytes 1 1 0 []
        (List.replicate 300 (strField [] [])))).map (fun r => r.fields.length) =
      some 234 :=
  ⟨logFields_msg300, logDirect_msg300, c2_fieldcount_aux⟩

set_option maxRecDepth 100000 in
set_option maxHeartbeats 2000000 in
/-- C2 counterexample: on the `logDirect` path a 300-byte message decodes
to 233 bytes, not to the 255-byte front the claim states. -/
theorem c2_counterexample :
    (decodeRecord (logDirectBytes 1 1 0 (List.replicate 300 65))).map
      DecRecord.msg ≠ some ((List.replicate 300 65).take 255) := by
  decide

set_option maxRecDepth 100000 in
set_option maxHeartbeats 2000000 in
/-- Witness for C2 at a concrete 300-byte message. -/
theorem c2_witness :
    (decodeRecord (logFieldsBytes 1 1 0 (List.replicate 300 66) [])).map
      DecRecord.msg = some ((List.replicate 300 66).take 255) ∧
    (decodeRecord (logDirectBytes 1 1 0 (List.replicate 300 66))).map
      DecRecord.msg = some ((List.replicate 300 66).take 233) :=
  ⟨c2_truncation_amended.1 1 1 0 (List.replicate 300 66) [] (by decide),
   c2_truncation_amended.2.1 1 1 0 (List.replicate 300 66) (by decide)⟩


set_option maxHeartbeats 1600000 in
/-- Malformed value bytes: whenever the structural parse yields `none`,
the renderer prints the `"?"` placeholder (byte 63). -/
theorem decodeFieldValueStr_placeholder (lib : GoLib) (key t : List Nat)
    (tag : Nat) (h : decodeFieldValueM key t tag = none) :
    decodeFieldValueStr lib t tag = [63] := by
  unfold decodeFieldValueM at h
  unfold decodeFieldValueStr
  split_ifs at h ⊢ <;> simp_all

/-- C3: the renderer's `Write` returns a typed decode error exactly when
the input is shorter than the 22-byte header or the little-endian magic
does not match; any input passing those two checks renders successfully —
in particular a truncated or malformed field value renders as the `"?"`
placeholder (second conjunct) and decoding continues. -/
theorem c3_renderer_errors :
    (∀ (lib : GoLib) (useColor : Bool) (b : List Nat),
      (∃ e, terminalWrite lib useColor b = .error e) ↔
        (b.length < 22 ∨ readLE32 b 0 ≠ MagicHeader)) ∧
    (∀ (lib : GoLib) (key t : List Nat) (tag : Nat),
      decodeFieldValueM key t tag = none →
      decodeFieldValueStr lib t tag = [63]) := by
  constructor
  · intro lib useColor b
    constructor
    · rintro ⟨e, he⟩
      by_cases h1 : b.length < 22
      · exact Or.inl h1
      · by_cases h2 : readLE32 b 0 ≠ MagicHeader
        · exact Or.inr h2
        · simp [terminalWrite, h1, h2] at he
    · intro h
      rcases h with h | h
      · exact ⟨.tooShort, by simp [terminalWrite, h]⟩
      · by_cases h1 : b.length < 22
        · exact ⟨.tooShort, by simp [terminalWrite, h1]⟩
        · exact ⟨.badMagic, by simp [terminalWrite, h1, h]⟩
  · exact fun lib key t tag h => decodeFieldValueStr_placeholder lib key t tag h

/-- Witness for C3: the empty input errors (too short), and an
int-tagged field with no value bytes renders the placeholder. -/
theorem c3_witness :
    (∃ e, terminalWrite lib0 false [] = .error e) ∧
    decodeFieldValueStr lib0 [] 0 = [63] :=
  ⟨(c3_renderer_errors.1 lib0 false []).mpr (Or.inl (by decide)),
   c3_renderer_errors.2 lib0 [] [] 0 (by decide)⟩

/-- C4: level filtering.  With the configured level equal to Warn (2),
Debug and Info calls on both logging paths return with the logger state
unchanged (sequence not advanced) and no sink invocation; Warn, Error and
Fatal calls advance the sequence once and invoke the sink exactly once
with the encoded record. -/
theorem c4_level_filtering (l : LoggerState) (ts : Nat) (msg : List Nat)
    (fields : List Field) (hwarn : l.state &&& 0xFF = 2) :
    (logDirect l 0 ts msg = (l, []) ∧ logDirect l 1 ts msg = (l, []) ∧
      logFields l 0 ts msg fields = (l, []) ∧
      logFields l 1 ts msg fields = (l, [])) ∧
    (∀ level, 2 ≤ level →
      logDirect l level ts msg =
        ({ l with sequence := (l.sequence + 1) % 2 ^ 64 },
          [logDirectBytes level ((l.sequence + 1) % 2 ^ 64) ts msg]) ∧
      logFields l level ts msg fields =
        ({ l with sequence := (l.sequence + 1) % 2 ^ 64 },
          [logFieldsBytes level ((l.sequence + 1) % 2 ^ 64) ts msg fields])) := by
  refine ⟨⟨?_, ?_, ?_, ?_⟩, ?_⟩
  · simp [logDirect, shouldLog, hwarn]
  · simp [logDirect, shouldLog, hwarn]
  · simp [logFields, shouldLog, hwarn]
  · simp [logFields, shouldLog, hwarn]
  · intro level hlv
    refine ⟨?_, ?_⟩
    · simp [logDirect, shouldLog, hwarn, hlv]
    · simp [logFields, shouldLog, hwarn, hlv]

/-- Witness for C4 at a logger with state word 2 and sequence 0. -/
theorem c4_witness :
    logDirect ⟨2, 0⟩ 1 0 [72] = (⟨2, 0⟩, []) ∧
    logDirect ⟨2, 0⟩ 2 0 [72] = (⟨2, 1⟩, [logDirectBytes 2 1 0 [72]]) :=
  ⟨(c4_level_filtering ⟨2, 0⟩ 0 [72] [] (by decide)).1.1,
   ((c4_level_filtering ⟨2, 0⟩ 0 [72] [] (by decide)).2 2 (by decide)).1⟩

/-- C5: ring buffer construction and capacity.  Size 15 (not a power of
two) panics in the constructor; size 16 succeeds, the first 15 `Put`
calls return true, and the 16th `Put` — with 15 items unconsumed —
returns false: usable capacity is `N - 1`. -/
theorem c5_ring_capacity :
    newRingBuffer 15 = none ∧
    ((newRingBuffer 16).bind fun rb =>
      (putList rb (List.replicate 16 [7])).map Prod.snd) =
      some (List.replicate 15 true ++ [false]) := by
  decide


/-! ### Ring buffer lemmas -/

theorem set_append_len {α : Type} (l1 l2 : List α) (x : α) :
    (l1 ++ l2).set l1.length x = l1 ++ l2.set 0 x := by
  induction l1 with
  | nil => rfl
  | cons a t ih => simp [List.set, ih]

theorem set_append_len_eq {α : Type} (l1 l2 : List α) (x : α) (i : Nat)
    (h : i = l1.length) : (l1 ++ l2).set i x = l1 ++ l2.set 0 x := by
  rw [h, set_append_len]

theorem newRingBuffer_pow (k : Nat) (hk : k ≤ 62) :
    newRingBuffer (2 ^ k) = some (midRing (2 ^ k) [] 0) := by
  have h1 : (2 : Nat) ^ k ≤ 2 ^ 62 := Nat.pow_le_pow_right (by norm_num) hk
  have h2 : (1 : Nat) ≤ 2 ^ k := Nat.one_le_two_pow
  have hand : (2 ^ k) &&& (2 ^ k - 1) = 0 := by
    have := Nat.and_pow_two_sub_one_eq_mod (2 ^ k) k
    simpa [Nat.mod_self] using this
  have hmask : ((((2 ^ k : Nat) : Int) - 1) % (2 : Int) ^ 64).toNat = 2 ^ k - 1 := by
    set n := (2 : Nat) ^ k with hn
    have hp : (2 : Int) ^ 64 = 18446744073709551616 := by norm_num
    rw [hp]
    omega
  unfold newRingBuffer
  rw [if_neg (by simp [hand])]
  rw [hmask]
  simp [midRing]

theorem midRing_buffer_length (N : Nat) (ds : List (List Nat)) (j : Nat)
    (hj : j ≤ ds.length) (hlen : ds.length ≤ N) :
    (midRing N ds j).buffer.length = N := by
  simp [midRing]
  omega

theorem replicate_cons_merge {α : Type} (j : Nat) (a : α) (Y : List α) :
    List.replicate j a ++ (a :: Y) = List.replicate (j + 1) a ++ Y := by
  rw [List.replicate_succ' j a]
  simp

theorem ringPut_mid (k : Nat) (ds : List (List Nat)) (d : List Nat)
    (h : ds.length + 1 ≤ 2 ^ k - 1) :
    ringPut (midRing (2 ^ k) ds 0) d =
      some (midRing (2 ^ k) (ds ++ [d]) 0, true) := by
  have hN : 1 ≤ 2 ^ k := Nat.one_le_two_pow
  have hnext : (ds.length + 1) &&& (2 ^ k - 1) = ds.length + 1 := by
    rw [Nat.and_pow_two_sub_one_eq_mod]
    exact Nat.mod_eq_of_lt (by omega)
  have hrep : List.replicate (2 ^ k - ds.length) (none : Option (List Nat)) =
      none :: List.replicate (2 ^ k - ds.length - 1) none := by
    rw [show 2 ^ k - ds.length = (2 ^ k - ds.length - 1) + 1 by omega]
    rfl
  simp only [ringPut, midRing, List.drop_zero, List.replicate_zero,
    List.nil_append, hnext]
  rw [if_neg (by omega)]
  rw [if_pos (by simp; omega)]
  rw [set_append_len_eq _ _ _ _ (by simp)]
  rw [hrep]
  simp [List.set, Nat.sub_sub]

theorem ringPut_full (k : Nat) (ds : List (List Nat)) (d : List Nat)
    (h : ds.length = 2 ^ k - 1) :
    ringPut (midRing (2 ^ k) ds 0) d = some (midRing (2 ^ k) ds 0, false) := by
  have hN : 1 ≤ 2 ^ k := Nat.one_le_two_pow
  have hnext : (ds.length + 1) &&& (2 ^ k - 1) = 0 := by
    rw [Nat.and_pow_two_sub_one_eq_mod, h]
    simp [Nat.sub_add_cancel hN]
  simp only [ringPut, midRing, hnext]
  rw [if_pos trivial]

theorem putList_mid (k : Nat) : ∀ (suf pre : List (List Nat)),
    pre.length + suf.length ≤ 2 ^ k - 1 →
    putList (midRing (2 ^ k) pre 0) suf =
      some (midRing (2 ^ k) (pre ++ suf) 0, List.replicate suf.length true) := by
  intro suf
  induction suf with
  | nil => intro pre _; simp [putList]
  | cons d rest ih =>
    intro pre hfit
    simp only [putList]
    rw [ringPut_mid k pre d (by simp at hfit; omega)]
    dsimp only
    rw [ih (pre ++ [d]) (by simp at hfit ⊢; omega)]
    simp [List.replicate_succ]

theorem ringGet_mid (k : Nat) (ds : List (List Nat)) (j : Nat)
    (hj : j < ds.length) (hlen : ds.length ≤ 2 ^ k - 1) :
    ringGet (midRing (2 ^ k) ds j) =
      some (midRing (2 ^ k) ds (j + 1), some ((ds.get ⟨j, hj⟩).take 256)) := by
  have hN : 1 ≤ 2 ^ k := Nat.one_le_two_pow
  have htail : (j + 1) &&& (2 ^ k - 1) = j + 1 := by
    rw [Nat.and_pow_two_sub_one_eq_mod]
    exact Nat.mod_eq_of_lt (by omega)
  have hdropj : ds.drop j = ds.get ⟨j, hj⟩ :: ds.drop (j + 1) :=
    List.drop_eq_getElem_cons hj
  have ht : (midRing (2 ^ k) ds j).tail = j := rfl
  have hh : (midRing (2 ^ k) ds j).head = ds.length := rfl
  have hm : (midRing (2 ^ k) ds j).mask = 2 ^ k - 1 := rfl
  have hbufj : (midRing (2 ^ k) ds j).buffer[j]? =
      some (some ((ds.get ⟨j, hj⟩).take 256)) := by
    show (List.replicate j (none : Option (List Nat)) ++
      ((ds.drop j).map fun d => some (List.take 256 d)) ++
      List.replicate (2 ^ k - ds.length) none)[j]? = _
    rw [List.append_assoc]
    rw [List.getElem?_append_right (by simp)]
    simp only [List.length_replicate, Nat.sub_self]
    rw [hdropj]
    simp only [List.map_cons, List.cons_append, List.getElem?_cons_zero]
  have hsetbuf : (midRing (2 ^ k) ds j).buffer.set j none =
      (midRing (2 ^ k) ds (j + 1)).buffer := by
    show (List.replicate j (none : Option (List Nat)) ++
      ((ds.drop j).map fun d => some (List.take 256 d)) ++
      List.replicate (2 ^ k - ds.length) none).set j none = _
    rw [List.append_assoc]
    rw [set_append_len_eq _ _ _ _ (by simp)]
    rw [hdropj]
    simp only [List.map_cons, List.cons_append, List.set]
    rw [replicate_cons_merge]
    show _ = List.replicate (j + 1) (none : Option (List Nat)) ++
      ((ds.drop (j + 1)).map fun d => some (List.take 256 d)) ++
      List.replicate (2 ^ k - ds.length) none
    simp
  simp only [ringGet, ht, hh, hm]
  rw [if_neg (by omega)]
  rw [hbufj]
  dsimp only
  rw [htail, hsetbuf]
  rfl

theorem ringGet_empty (N : Nat) (ds : List (List Nat)) :
    ringGet (midRing N ds ds.length) = some (midRing N ds ds.length, none) := by
  simp [ringGet, midRing]

theorem getList_mid (k : Nat) (ds : List (List Nat))
    (hlen : ds.length ≤ 2 ^ k - 1) : ∀ (n j : Nat), j + n = ds.length →
    getList (midRing (2 ^ k) ds j) n =
      some (midRing (2 ^ k) ds ds.length,
        (ds.drop j).map fun d => some (d.take 256)) := by
  intro n
  induction n with
  | zero =>
    intro j hj
    have : j = ds.length := by omega
    subst this
    simp [getList]
  | succ m ih =>
    intro j hj
    have hjlt : j < ds.length := by omega
    simp only [getList]
    rw [ringGet_mid k ds j hjlt hlen]
    dsimp only
    rw [ih (j + 1) (by omega)]
    dsimp only
    rw [List.drop_eq_getElem_cons hjlt]
    simp
    rw [List.drop_eq_getElem_cons
      (show j < (List.map (fun d => some (List.take 256 d)) ds).length from by
        simpa using hjlt)]
    simp

theorem drainAll_mid (k : Nat) (ds : List (List Nat))
    (hlen : ds.length ≤ 2 ^ k - 1) : ∀ (fuel j : Nat), j ≤ ds.length →
    ds.length - j < fuel →
    drainAll (midRing (2 ^ k) ds j) fuel =
      some (midRing (2 ^ k) ds ds.length,
        (ds.drop j).map fun d => d.take 256) := by
  intro fuel
  induction fuel with
  | zero => intro j hj h; omega
  | succ m ih =>
    intro j hjle hj
    by_cases hjl : j < ds.length
    · simp only [drainAll]
      rw [ringGet_mid k ds j hjl hlen]
      dsimp only
      rw [ih (j + 1) (by omega) (by omega)]
      dsimp only
      rw [List.drop_eq_getElem_cons hjl]
      simp
      rw [List.drop_eq_getElem_cons
        (show j < (List.map (fun d => List.take 256 d) ds).length from by
          simpa using hjl)]
      simp
    · have hje : j = ds.length := by omega
      subst hje
      simp only [drainAll]
      rw [ringGet_empty]
      simp


/-- C6: ring buffer FIFO.  For every ring of size `N = 2^k` (a positive
power of two representable as a Go int), from empty, `N-1` sequential
`Put` calls all succeed, an `N`-th `Put` issued while the `N-1` items are
unconsumed fails without changing the state, and `N-1` `Get` calls then
return the payloads in exactly insertion order. -/
theorem c6_ring_fifo (k : Nat) (hk : k ≤ 62) (ds : List (List Nat))
    (hlen : ds.length = 2 ^ k - 1) (hsz : ∀ d ∈ ds, d.length ≤ 256)
    (dN : List Nat) :
    ∃ rb0 rbF rbE,
      newRingBuffer (2 ^ k) = some rb0 ∧
      putList rb0 ds = some (rbF, List.replicate (2 ^ k - 1) true) ∧
      ringPut rbF dN = some (rbF, false) ∧
      getList rbF (2 ^ k - 1) = some (rbE, ds.map some) := by
  refine ⟨midRing (2 ^ k) [] 0, midRing (2 ^ k) ds 0,
    midRing (2 ^ k) ds ds.length, newRingBuffer_pow k hk, ?_, ?_, ?_⟩
  · have h := putList_mid k ds [] (by simp; omega)
    simpa [hlen] using h
  · exact ringPut_full k ds dN hlen
  · have h := getList_mid k ds (by omega) (2 ^ k - 1) 0 (by omega)
    rw [h]
    simp only [List.drop_zero]
    have hm : ds.map (fun d => some (List.take 256 d)) = ds.map some := by
      apply List.map_congr_left
      intro d hd
      rw [List.take_of_length_le (hsz d hd)]
    rw [hm]

/-- Witness for C6: a size-4 ring accepts three payloads, rejects the
fourth, and returns the three in order. -/
theorem c6_witness :
    ∃ rb0 rbF rbE,
      newRingBuffer (2 ^ 2) = some rb0 ∧
      putList rb0 [[1], [2], [3]] = some (rbF, List.replicate (2 ^ 2 - 1) true) ∧
      ringPut rbF [9] = some (rbF, false) ∧
      getList rbF (2 ^ 2 - 1) = some (rbE, [[1], [2], [3]].map some) :=
  c6_ring_fifo 2 (by norm_num) [[1], [2], [3]] (by decide) (by decide) [9]

/-- C9: the power-of-two test `size&(size-1) != 0` does not reject size 0:
`NewRingBuffer(0)` succeeds with an empty backing array and mask
`2^64 - 1`, and the very first `Put` then indexes past the end of the
array (the Go panic, modeled as `none`).  Conversely, for a positive
power-of-two size the cursors stay in bounds: `Put` never panics and both
`Put` and `Get` preserve the structural invariant. -/
theorem c9_size_zero_bounds :
    (newRingBuffer 0 = some ⟨2 ^ 64 - 1, 0, 0, [], 0⟩ ∧
      ringPut ⟨2 ^ 64 - 1, 0, 0, [], 0⟩ [7] = none) ∧
    (∀ (k : Nat) (rb : RingBuffer) (d : List Nat), RingInv k rb →
      rb.head < rb.buffer.length ∧ rb.tail < rb.buffer.length ∧
      (∃ rb2 ok, ringPut rb d = some (rb2, ok) ∧ RingInv k rb2) ∧
      (∀ rb2 r, ringGet rb = some (rb2, r) → RingInv k rb2)) := by
  constructor
  · exact ⟨by decide, by decide⟩
  · intro k rb d hinv
    obtain ⟨hmask, hsize, hblen, hhead, htail⟩ := hinv
    have hpow := Nat.two_pow_pos k
    have hnext : (rb.head + 1) &&& rb.mask < 2 ^ k := by
      rw [hmask, Nat.and_pow_two_sub_one_eq_mod]
      exact Nat.mod_lt _ hpow
    refine ⟨by omega, by omega, ?_, ?_⟩
    · by_cases hfull : (rb.head + 1) &&& rb.mask = rb.tail
      · refine ⟨rb, false, ?_, ⟨hmask, hsize, hblen, hhead, htail⟩⟩
        simp [ringPut, hfull]
      · refine ⟨{ rb with buffer := rb.buffer.set rb.head (some (d.take 256)), head := (rb.head + 1) &&& rb.mask }, true, ?_, ?_⟩
        · simp only [ringPut]
          rw [if_neg hfull, if_pos (by omega)]
        · exact ⟨hmask, hsize, by simp [List.length_set]; omega, hnext, htail⟩
    · intro rb2 r hget
      simp only [ringGet] at hget
      by_cases hempty : rb.tail = rb.head
      · rw [if_pos hempty] at hget
        cases hget
        exact ⟨hmask, hsize, hblen, hhead, htail⟩
      · rw [if_neg hempty] at hget
        have htail2 : (rb.tail + 1) &&& rb.mask < 2 ^ k := by
          rw [hmask, Nat.and_pow_two_sub_one_eq_mod]
          exact Nat.mod_lt _ hpow
        cases hbuf : rb.buffer[rb.tail]? with
        | none => rw [hbuf] at hget; cases hget
        | some o =>
          cases o with
          | none => rw [hbuf] at hget; cases hget
          | some e =>
            rw [hbuf] at hget
            dsimp only at hget
            cases hget
            exact ⟨hmask, hsize, by simp [List.length_set]; omega, hhead, htail2⟩

/-- Witness for C9's invariant part at a size-2 ring. -/
theorem c9_witness :
    (⟨1, 0, 0, [none, none], 2⟩ : RingBuffer).head <
      (⟨1, 0, 0, [none, none], 2⟩ : RingBuffer).buffer.length ∧
    (⟨1, 0, 0, [none, none], 2⟩ : RingBuffer).tail <
      (⟨1, 0, 0, [none, none], 2⟩ : RingBuffer).buffer.length ∧
    (∃ rb2 ok, ringPut ⟨1, 0, 0, [none, none], 2⟩ [5] = some (rb2, ok) ∧
      RingInv 1 rb2) ∧
    (∀ rb2 r, ringGet ⟨1, 0, 0, [none, none], 2⟩ = some (rb2, r) →
      RingInv 1 rb2) :=
  c9_size_zero_bounds.2 1 ⟨1, 0, 0, [none, none], 2⟩ [5] (by decide)

/-- C7 counterexample: from a fresh async writer with one record queued,
the single `Close` transition — `close(aw.done); return nil` — reaches a
state where `Close` has returned, nothing has been forwarded downstream,
and the record is still in the ring: `Close` does not drain before
returning. -/
theorem c7_counterexample :
    ∃ sInit s0 s1 : AsyncState,
      newAsyncState 4 = some sInit ∧
      AsyncStep sInit s0 ∧ AsyncStep s0 s1 ∧
      s1.closeReturned = true ∧ s1.out = [] ∧ s1.ring.tail ≠ s1.ring.head := by
  refine ⟨⟨⟨3, 0, 0, List.replicate 4 none, 4⟩, false, false, false, []⟩,
    ⟨⟨3, 1, 0, [some [5], none, none, none], 4⟩, false, false, false, []⟩,
    ⟨⟨3, 1, 0, [some [5], none, none, none], 4⟩, true, true, false, []⟩,
    by decide, ?_, ?_, rfl, rfl, by decide⟩
  · exact AsyncStep.writeQueued _ [5] _ (by decide)
  · exact AsyncStep.close _ rfl

/-- C7 (amended): `Close` closes the `done` channel and returns at once,
without waiting for the consumer (first conjunct: the `Close` transition
changes nothing but the two flags).  Once the consumer observes the
closed channel, it drains every queued entry to the downstream writer in
FIFO order in one synchronous sweep and only then exits (second
conjunct), so no queued record is lost — but entries may be forwarded
after `Close` has already returned. -/
theorem c7_close_drain_amended :
    (∀ s : AsyncState, s.doneClosed = false →
      AsyncStep s { s with doneClosed := true, closeReturned := true }) ∧
    (∀ (k : Nat) (ds : List (List Nat)) (s : AsyncState),
      ds.length ≤ 2 ^ k - 1 → (∀ d ∈ ds, d.length ≤ 256) →
      s.ring = midRing (2 ^ k) ds 0 → s.doneClosed = true →
      s.consumerExited = false →
      AsyncStep s ⟨midRing (2 ^ k) ds ds.length, s.doneClosed,
        s.closeReturned, true, s.out ++ ds⟩) := by
  constructor
  · intro s h
    exact AsyncStep.close s h
  · intro k ds s hlen hsz hring hdone hrun
    have hds : ds.map (fun d => List.take 256 d) = ds := by
      conv_rhs => rw [← List.map_id ds]
      apply List.map_congr_left
      intro d hd
      exact List.take_of_length_le (hsz d hd)
    have hdrain : drainAll s.ring (s.ring.size + 1) =
        some (midRing (2 ^ k) ds ds.length, ds) := by
      rw [hring]
      have hf : ds.length - 0 < 2 ^ k + 1 := by
        have := Nat.two_pow_pos k
        omega
      have h := drainAll_mid k ds hlen (2 ^ k + 1) 0 (Nat.zero_le _) hf
      simp only [List.drop_zero] at h
      rw [show (midRing (2 ^ k) ds 0).size = 2 ^ k from rfl]
      rw [h, hds]
    have hstep := AsyncStep.consumeDrain s (midRing (2 ^ k) ds ds.length) ds
      hdone hrun hdrain
    exact hstep

/-- Witness for C7 at a size-4 ring holding one queued record. -/
theorem c7_witness :
    AsyncStep ⟨midRing (2 ^ 2) [[9]] 0, true, true, false, []⟩
      ⟨midRing (2 ^ 2) [[9]] 1, true, true, true, [[9]]⟩ :=
  c7_close_drain_amended.2 2 [[9]]
    ⟨midRing (2 ^ 2) [[9]] 0, true, true, false, []⟩
    (by decide) (by decide) rfl rfl rfl


/-! ### Memory-mapped writer lemmas -/

theorem writeBytes_length (data b : List Nat) (start : Nat)
    (h : start + b.length ≤ data.length) :
    (writeBytes data start b).length = data.length := by
  simp [writeBytes]
  omega

/-- C8: mmap circular wraparound.  A `Write` whose reserved end offset
exceeds the capacity resets the offset to `len(bytes)` and copies the
payload at position 0 (first conjunct); concretely, with capacity 100 and
nine sequential 15-byte writes, after six writes the first 15 bytes hold
the first record, the 7th write overwrites them and leaves the offset at
15 (the size of the record that wrapped), and the 9th write ends at
offset 45. -/
theorem c8_mmap_wraparound :
    (∀ (w : MMapWriter) (b : List Nat), w.data.length = w.size →
      0 < b.length → b.length ≤ w.size → w.size < w.offset + b.length →
      mmapWrite w b = some ⟨w.size, b.length, writeBytes w.data 0 b⟩) ∧
    ((mmapWriteList (newMMapWriter 100)
        ((List.range 6).map fun i => List.replicate 15 (i + 1))).map
        (fun w => (w.offset, w.data.take 15)) =
      some (90, List.replicate 15 1)) ∧
    ((mmapWriteList (newMMapWriter 100)
        ((List.range 7).map fun i => List.replicate 15 (i + 1))).map
        (fun w => (w.offset, w.data.take 15)) =
      some (15, List.replicate 15 7)) ∧
    ((mmapWriteList (newMMapWriter 100)
        ((List.range 9).map fun i => List.replicate 15 (i + 1))).map
        (fun w => w.offset) = some 45) := by
  refine ⟨?_, by decide, by decide, by decide⟩
  intro w b hdl hpos hle hwrap
  simp only [mmapWrite]
  rw [if_neg (show ¬ b.length = 0 from by omega)]
  rw [if_pos (show w.offset + b.length > w.size from by omega)]
  rw [if_pos (show b.length ≤ w.data.length from by omega)]
  rw [show b.length - b.length = 0 from by omega]

/-- Witness for C8's wrap conjunct: capacity 10, offset 7, an 8-byte
record wraps to offset 8 at position 0. -/
theorem c8_witness :
    mmapWrite ⟨10, 7, List.replicate 10 0⟩ (List.replicate 8 3) =
      some ⟨10, (List.replicate 8 3).length,
        writeBytes (List.replicate 10 0) 0 (List.replicate 8 3)⟩ :=
  c8_mmap_wraparound.1 ⟨10, 7, List.replicate 10 0⟩ (List.replicate 8 3)
    (by decide) (by decide) (by decide) (by decide)

/-- C10: mmap write bounds.  When `0 < len(b) ≤ capacity`, the copied
range lies inside the mapped region: the write succeeds (no slice
panic), the new offset stays at most the capacity, and the region keeps
its length.  When `len(b) > capacity`, the wrap branch sets the offset to
`len(b)` and the slice `data[0:len(b)]` leaves the region: the Go
slice-bounds panic, modeled as `none`. -/
theorem c10_mmap_bounds :
    (∀ (w : MMapWriter) (b : List Nat), w.data.length = w.size →
      0 < b.length → b.length ≤ w.size →
      ∃ w2, mmapWrite w b = some w2 ∧ w2.offset ≤ w.size ∧
        w2.data.length = w.size ∧ w2.size = w.size) ∧
    (∀ (w : MMapWriter) (b : List Nat), w.data.length = w.size →
      w.size < b.length → mmapWrite w b = none) := by
  constructor
  · intro w b hdl hpos hle
    by_cases hwrap : w.size < w.offset + b.length
    · refine ⟨⟨w.size, b.length, writeBytes w.data 0 b⟩, ?_, hle, ?_, rfl⟩
      · simp only [mmapWrite]
        rw [if_neg (show ¬ b.length = 0 from by omega)]
        rw [if_pos (show w.offset + b.length > w.size from by omega)]
        rw [if_pos (show b.length ≤ w.data.length from by omega)]
        rw [show b.length - b.length = 0 from by omega]
      · show (writeBytes w.data 0 b).length = w.size
        rw [writeBytes_length _ _ _ (by omega)]
        omega
    · refine ⟨⟨w.size, w.offset + b.length,
        writeBytes w.data (w.offset + b.length - b.length) b⟩, ?_,
        show w.offset + b.length ≤ w.size from by omega, ?_, rfl⟩
      · simp only [mmapWrite]
        rw [if_neg (show ¬ b.length = 0 from by omega)]
        rw [if_neg (show ¬ w.offset + b.length > w.size from by omega)]
        rw [if_pos (show w.offset + b.length ≤ w.data.length from by omega)]
      · show (writeBytes w.data (w.offset + b.length - b.length) b).length = w.size
        rw [writeBytes_length _ _ _ (by omega)]
        omega
  · intro w b hdl hbig
    simp only [mmapWrite]
    rw [if_neg (show ¬ b.length = 0 from by omega)]
    rw [if_pos (show w.offset + b.length > w.size from by omega)]
    rw [if_neg (show ¬ b.length ≤ w.data.length from by omega)]

/-- Witness for C10: an in-range write succeeds and an oversized write
panics. -/
theorem c10_witness :
    (∃ w2, mmapWrite ⟨10, 0, List.replicate 10 0⟩ (List.replicate 4 1) =
      some w2 ∧ w2.offset ≤ 10 ∧ w2.data.length = 10 ∧ w2.size = 10) ∧
    mmapWrite ⟨10, 0, List.replicate 10 0⟩ (List.replicate 11 1) = none :=
  ⟨c10_mmap_bounds.1 ⟨10, 0, List.replicate 10 0⟩ (List.replicate 4 1)
      (by decide) (by decide) (by decide),
   c10_mmap_bounds.2 ⟨10, 0, List.replicate 10 0⟩ (List.replicate 11 1)
      (by decide) (by decide)⟩

end Zlog
